import Mathlib

/-!
Verification of the `arjp` JSON parser (`src/parser.rs`, `src/value.rs`).

The parser is embedded shallowly.  The Rust `JsonParser` struct keeps the
full input, a byte `position` and the `remaining` suffix; every parsing
decision reads only `remaining`, and `position` is used solely to recompute
`remaining` by slicing.  Accordingly the main embedding threads the
remaining character list directly (the `position`/`remaining`/slice
bookkeeping is modelled separately and its invariant proved below, which
justifies reading the cursor moves as list operations).  The mutual
recursion between `parse_value` and the array/object loops is made
structural with an explicit fuel counter; `PResult.fuel` marks fuel
exhaustion, and the theorems below show the fuel chosen by the top-level
`parse` is always sufficient, which is exactly the termination statement
of the source's recursive descent.
-/

set_option maxRecDepth 40000

namespace Arjp

/-- Model of Rust `char::is_whitespace` (the Unicode White_Space property),
used by `skip_whitespace` in `src/parser.rs`. -/
def rustIsWhitespace (c : Char) : Bool :=
  decide ((9 ≤ c.toNat ∧ c.toNat ≤ 13) ∨ c.toNat = 32 ∨ c.toNat = 133 ∨
    c.toNat = 160 ∨ c.toNat = 5760 ∨ (8192 ≤ c.toNat ∧ c.toNat ≤ 8202) ∨
    c.toNat = 8232 ∨ c.toNat = 8233 ∨ c.toNat = 8239 ∨ c.toNat = 8287 ∨
    c.toNat = 12288)

/-- Model of Rust `char::is_ascii_digit`, as used by `parse_number`. -/
def isDig (c : Char) : Bool :=
  decide (48 ≤ c.toNat ∧ c.toNat ≤ 57)

/-- Model of Rust `char::to_digit(16)`, as used by the `\u` escape in
`parse_string`. -/
def toDigit16 (c : Char) : Option Nat :=
  if 48 ≤ c.toNat ∧ c.toNat ≤ 57 then some (c.toNat - 48)
  else if 97 ≤ c.toNat ∧ c.toNat ≤ 102 then some (c.toNat - 87)
  else if 65 ≤ c.toNat ∧ c.toNat ≤ 70 then some (c.toNat - 55)
  else none

/-- Model of Rust `char::from_u32`: `some` exactly on Unicode scalar values
(not a surrogate, below `0x110000`). -/
def charFromU32 (n : Nat) : Option Char :=
  if n.isValidChar then some (Char.ofNat n) else none

/-- Model of Rust `str::starts_with` on the remaining input (first argument
is the needle, second the haystack). -/
def startsWithStr : List Char → List Char → Bool
  | [], _ => true
  | _ :: _, [] => false
  | x :: xs, y :: ys => x == y && startsWithStr xs ys

/-- `JsonParser::skip_whitespace`: drop leading whitespace characters from
the remaining input. -/
def skipWs : List Char → List Char
  | [] => []
  | c :: rest => if rustIsWhitespace c then skipWs rest else c :: rest

/-- Numeric value of a list of ASCII decimal digits (most significant
first), used by the model of float conversion. -/
def digitsToNat (ds : List Char) : Nat :=
  ds.foldl (fun a c => a * 10 + (c.toNat - 48)) 0

/-- Idealized IEEE-754 binary64 result of a decimal-to-float conversion:
either a finite value (kept as the exact rational before rounding, which
does not affect finiteness), a signed infinity, or NaN. -/
inductive F64 where
  | finite (q : ℚ)
  | inf (neg : Bool)
  | nan
deriving DecidableEq, Repr

/-- Smallest magnitude at which correctly-rounded (round to nearest, ties
to even) decimal-to-binary64 conversion overflows to infinity, as a
natural number: `2 ^ 971 * (2 ^ 53 - 1) = 2 ^ 1024 - 2 ^ 971`. -/
def ovfThreshold : ℕ := 2 ^ 971 * (2 ^ 53 - 1)

/-- Model of Rust `str::parse::<f64>` (standard library, outside this
repository) restricted to the decimal literals that `parse_number`
constructs: an optional minus sign, one or more digits, an optional
fraction (dot and one or more digits) and an optional exponent (`e`/`E`,
optional sign, one or more digits).  The conversion is correctly rounded
in Rust; here the finite result keeps the exact rational magnitude
(rounding never changes whether the result is finite), overflows to a
signed infinity exactly when the magnitude reaches `ovfThreshold`, and is
never NaN.  Strings outside this shape return `none`; `parse_number`
never produces such a string (proved below). -/
def mkF64 (neg eneg : Bool) (ds1 ds2 ds3 : List Char) : F64 :=
  let m : ℕ := digitsToNat ds1 * 10 ^ ds2.length + digitsToNat ds2
  let e : ℕ := digitsToNat ds3
  let num : ℕ := if eneg then m else m * 10 ^ e
  let den : ℕ := if eneg then 10 ^ (ds2.length + e) else 10 ^ ds2.length
  if ovfThreshold * den ≤ num then .inf neg
  else .finite (mkRat (if neg then -(num : ℤ) else (num : ℤ)) den)

/-- See `mkF64` and the doc comment below: the conversion result for the
decomposed literal. -/
def rustParseF64 (s : List Char) : Option F64 :=
  let neg := startsWithStr (['-']) s
  let s1 := if neg then s.drop 1 else s
  let ds1 := s1.takeWhile isDig
  let r1 := s1.dropWhile isDig
  let hasDot := startsWithStr (['.']) r1
  let ds2 := if hasDot then (r1.drop 1).takeWhile isDig else []
  let r2 := if hasDot then (r1.drop 1).dropWhile isDig else r1
  let hasE := startsWithStr (['e']) r2 || startsWithStr (['E']) r2
  let r3 := if hasE then r2.drop 1 else r2
  let eneg := hasE && startsWithStr (['-']) r3
  let r4 := if hasE && (startsWithStr (['+']) r3 || startsWithStr (['-']) r3) then
    r3.drop 1 else r3
  let ds3 := if hasE then r4.takeWhile isDig else []
  let r5 := if hasE then r4.dropWhile isDig else r4
  if ds1 = [] ∨ r5 ≠ [] ∨ (hasDot = true ∧ ds2 = []) ∨ (hasE = true ∧ ds3 = []) then
    none
  else
    -- exact value: (ds1 + ds2 / 10 ^ |ds2|) * 10 ^ (± ds3), as one fraction
    some (mkF64 neg eneg ds1 ds2 ds3)

/-- `JsonValue` from `src/value.rs`.  The `Object` variant's `HashMap` is
modelled by its association list of entries together with the last-wins
`insertKV` below; `String` keys and values are character lists. -/
inductive JsonValue where
  | null
  | boolean (b : Bool)
  | number (x : F64)
  | string (s : List Char)
  | array (items : List JsonValue)
  | object (entries : List (List Char × JsonValue))

/-- Model of `HashMap::insert`: if the key is already bound, the later
value replaces the earlier one, otherwise the binding is appended. -/
def insertKV (m : List (List Char × JsonValue)) (k : List Char) (v : JsonValue) :
    List (List Char × JsonValue) :=
  if m.any (fun p => p.1 == k) then
    m.map (fun p => if p.1 == k then (k, v) else p)
  else m ++ [(k, v)]

/-- Result of one parsing routine: a value plus the remaining input, an
error message (the `ParseError` of `src/error.rs` carries only a message),
or fuel exhaustion of the embedding (proved unreachable below). -/
inductive PResult where
  | ok (v : JsonValue) (rest : List Char)
  | err (msg : String)
  | fuel

/-- Result of the top-level `parse`. -/
inductive TResult where
  | ok (v : JsonValue)
  | err (msg : String)
  | fuel

/-- `JsonParser::parse_null`: exact-literal check, then the cursor is
advanced 4 bytes past `null` (the byte/character correspondence for this
advance is proved in the cursor-invariant section). -/
def parse_null (rem : List Char) : PResult :=
  if startsWithStr ("null".toList) rem then .ok .null (rem.drop 4)
  else .err ("Invalid null value")

/-- `JsonParser::parse_boolean`: exact-literal checks for `true` (advance
4) and `false` (advance 5). -/
def parse_boolean (rem : List Char) : PResult :=
  if startsWithStr ("true".toList) rem then .ok (.boolean true) (rem.drop 4)
  else if startsWithStr ("false".toList) rem then .ok (.boolean false) (rem.drop 5)
  else .err ("Invalid boolean value")

/-- The `for i in (0..4).rev()` hex-digit loop of the `\u` escape in
`JsonParser::parse_string`: the counter is the number of digits still to
read, and digit `d` read with `i` digits left afterwards contributes
`d <<< (i * 4)` to the accumulated code unit. -/
def readHexLoop : Nat → Nat → List Char → Except String (Nat × List Char)
  | 0, code, rem => .ok (code, rem)
  | i + 1, code, rem =>
    match rem with
    | [] => .error ("Incomplete unicode escape sequence")
    | c :: rest =>
      match toDigit16 c with
      | some d => readHexLoop i (code ||| (d <<< (i * 4))) rest
      | none => .error ("Invalid unicode escape sequence")

/-- The character loop of `JsonParser::parse_string`, with accumulated
result `acc`.  Fuel is one unit per loop iteration; each iteration
consumes at least one character so the seed used by `parse_string` is
sufficient (proved below). -/
def psLoop : Nat → List Char → List Char → PResult
  | 0, _, [] => .err ("Unterminated string")
  | 0, _, _ :: _ => .fuel
  | _ + 1, _, [] => .err ("Unterminated string")
  | n + 1, acc, c :: rest =>
    if c = '"' then .ok (.string acc) rest
    else if c = '\\' then
      match rest with
      | [] => .err ("Unterminated string after escape")
      | e :: rest2 =>
        if e = '"' then psLoop n (acc ++ ['"']) rest2
        else if e = '\\' then psLoop n (acc ++ ['\\']) rest2
        else if e = '/' then psLoop n (acc ++ ['/']) rest2
        else if e = 'b' then psLoop n (acc ++ [Char.ofNat 8]) rest2
        else if e = 'f' then psLoop n (acc ++ [Char.ofNat 12]) rest2
        else if e = 'n' then psLoop n (acc ++ ['\n']) rest2
        else if e = 'r' then psLoop n (acc ++ [Char.ofNat 13]) rest2
        else if e = 't' then psLoop n (acc ++ ['\t']) rest2
        else if e = 'u' then
          match readHexLoop 4 0 rest2 with
          | .ok (code, rest3) =>
            match charFromU32 code with
            | some ch => psLoop n (acc ++ [ch]) rest3
            | none => .err ("Invalid unicode code point: " ++ toString code)
          | .error msg => .err msg
        else .err ("Invalid escape sequence: \\" ++ toString e)
    else psLoop n (acc ++ [c]) rest

/-- `JsonParser::parse_string`: skip the opening quote, then run the
character loop. -/
def parse_string (rem : List Char) : PResult :=
  psLoop (rem.drop 1).length [] (rem.drop 1)

/-- The optional-sign step of `JsonParser::parse_number`: the consumed
characters and the rest. -/
def scanSign (s : List Char) : List Char × List Char :=
  if startsWithStr (['-']) s then (['-'], s.drop 1) else ([], s)

/-- The fraction step of `JsonParser::parse_number`: on a leading dot, at
least one digit must follow; the consumed characters and the rest are
returned. -/
def scanFrac (r : List Char) : Except String (List Char × List Char) :=
  if startsWithStr (['.']) r then
    match (r.drop 1).takeWhile isDig with
    | [] => .error ("Decimal point must be followed by at least one digit")
    | ds => .ok ('.' :: ds, (r.drop 1).dropWhile isDig)
  else .ok ([], r)

/-- The exponent step of `JsonParser::parse_number`: on a leading `e`/`E`,
an optional sign and then at least one digit must follow. -/
def scanExp (r : List Char) : Except String (List Char × List Char) :=
  if startsWithStr (['e']) r || startsWithStr (['E']) r then
    let hasSign := startsWithStr (['+']) (r.drop 1) || startsWithStr (['-']) (r.drop 1)
    let sg := if hasSign then (r.drop 1).take 1 else []
    let r2 := if hasSign then (r.drop 1).drop 1 else r.drop 1
    match r2.takeWhile isDig with
    | [] => .error ("Exponent must be followed by at least one digit")
    | ds => .ok (r.take 1 ++ (sg ++ ds), r2.dropWhile isDig)
  else .ok ([], r)

/-- `JsonParser::parse_number`: optional sign, required digits, optional
fraction and exponent, then conversion of the accumulated literal. -/
def parse_number (s : List Char) : PResult :=
  match scanSign s with
  | (sg, r1) =>
    match r1.takeWhile isDig with
    | [] => .err ("Number must contain at least one digit")
    | ds1 =>
      match scanFrac (r1.dropWhile isDig) with
      | .error msg => .err msg
      | .ok (fr, r3) =>
        match scanExp r3 with
        | .error msg => .err msg
        | .ok (ex, r6) =>
          match rustParseF64 (sg ++ (ds1 ++ (fr ++ ex))) with
          | some x => .ok (.number x) r6
          | none => .err ("Invalid number: invalid float literal")

/-- The element loop of `JsonParser::parse_array`.  `pv` is the
value parser the loop re-enters (`parse_value` at the enclosing fuel). -/
def arrayLoop (pv : List Char → PResult) : Nat → List JsonValue → List Char → PResult
  | 0, _, _ => .fuel
  | n + 1, acc, rem =>
    match pv rem with
    | .ok v rem1 =>
      match skipWs rem1 with
      | ']' :: rest => .ok (.array (acc ++ [v])) rest
      | ',' :: rest => arrayLoop pv n (acc ++ [v]) (skipWs rest)
      | c :: _ => .err ("Expected comma or closing bracket, got \x27" ++ toString c ++ "\x27")
      | [] => .err ("Unterminated array")
    | .err e => .err e
    | .fuel => .fuel

/-- `JsonParser::parse_array`: consume `[`, skip whitespace, return the
empty array on an immediate `]`, otherwise run the element loop. -/
def parse_array (pv : List Char → PResult) (n : Nat) (rem : List Char) : PResult :=
  match skipWs (rem.drop 1) with
  | ']' :: rest => .ok (.array []) rest
  | rem1 => arrayLoop pv n [] rem1

/-- The member loop of `JsonParser::parse_object`: parse a value and
require it to be a string key, require `:`, parse the value, insert with
last-wins semantics, then continue on `,` or close on the brace. -/
def objectLoop (pv : List Char → PResult) :
    Nat → List (List Char × JsonValue) → List Char → PResult
  | 0, _, _ => .fuel
  | n + 1, acc, rem =>
    match pv rem with
    | .ok kv rem1 =>
      match kv with
      | .string key =>
        match skipWs rem1 with
        | ':' :: rest =>
          match pv rest with
          | .ok v rem3 =>
            match skipWs rem3 with
            | '}' :: rest2 => .ok (.object (insertKV acc key v)) rest2
            | ',' :: rest2 => objectLoop pv n (insertKV acc key v) (skipWs rest2)
            | c :: _ => .err ("Expected comma or closing brace, got \x27" ++ toString c ++ "\x27")
            | [] => .err ("Unterminated object")
          | .err e => .err e
          | .fuel => .fuel
        | _ => .err ("Expected colon after key in object")
      | _ => .err ("Object keys must be strings")
    | .err e => .err e
    | .fuel => .fuel

/-- `JsonParser::parse_object`: consume the opening brace, skip
whitespace, return the empty object on an immediate closing brace,
otherwise run the member loop. -/
def parse_object (pv : List Char → PResult) (n : Nat) (rem : List Char) : PResult :=
  match skipWs (rem.drop 1) with
  | '}' :: rest => .ok (.object []) rest
  | rem1 => objectLoop pv n [] rem1

/-- `JsonParser::parse_value`: skip whitespace, peek the next character
without consuming it, and dispatch on it. -/
def parse_value : Nat → List Char → PResult
  | 0, _ => .fuel
  | n + 1, rem0 =>
    match skipWs rem0 with
    | [] => .err ("Unexpected end of input")
    | c :: rest =>
      if c = 'n' then parse_null (c :: rest)
      else if c = 't' ∨ c = 'f' then parse_boolean (c :: rest)
      else if c = '"' then parse_string (c :: rest)
      else if c = '[' then parse_array (parse_value n) n (c :: rest)
      else if c = '{' then parse_object (parse_value n) n (c :: rest)
      else if isDig c ∨ c = '-' then parse_number (c :: rest)
      else .err ("Unexpected character")

/-- `JsonParser::parse`: skip leading whitespace, parse one value, skip
trailing whitespace, and reject any remaining input. -/
def parse (s : List Char) : TResult :=
  match parse_value (s.length + 1) (skipWs s) with
  | .ok v rem1 =>
    if skipWs rem1 = [] then .ok v
    else .err ("Extra characters after JSON value")
  | .err e => .err e
  | .fuel => .fuel

/-- Rust `char::len_utf8`: the UTF-8 encoded byte width of a character. -/
def utf8Len (c : Char) : Nat :=
  if c.toNat < 128 then 1
  else if c.toNat < 2048 then 2
  else if c.toNat < 65536 then 3
  else 4

/-- Total UTF-8 byte length of a character list (the length of the Rust
`&str` holding those characters). -/
def byteLen : List Char → Nat
  | [] => 0
  | c :: rest => utf8Len c + byteLen rest

/-- Rust string slicing `&input[pos..]`: `some` suffix when `pos` lands on
a character boundary and is at most the byte length, `none` (a panic in
Rust) otherwise. -/
def sliceFrom : List Char → Nat → Option (List Char)
  | s, 0 => some s
  | [], _ + 1 => none
  | c :: rest, n + 1 =>
    if utf8Len c ≤ n + 1 then sliceFrom rest (n + 1 - utf8Len c) else none

/-- The `JsonParser` struct of `src/parser.rs`: the full input, the byte
offset of the unconsumed remainder, and the remainder itself. -/
structure JsonParser where
  input : List Char
  position : Nat
  remaining : List Char
deriving DecidableEq, Repr

namespace JsonParser

/-- `JsonParser::new`. -/
def new (input : List Char) : JsonParser := ⟨input, 0, input⟩

/-- `JsonParser::next_char`: read the next character of `remaining`,
advance `position` by its UTF-8 width, and recompute `remaining` by
slicing the input at the new position (`getD []` stands for the value of
the slice, which the invariant below proves is always defined). -/
def next_char (p : JsonParser) : Option Char × JsonParser :=
  match p.remaining with
  | [] => (none, p)
  | c :: _ =>
    let pos := p.position + utf8Len c
    (some c, { input := p.input, position := pos,
               remaining := (sliceFrom p.input pos).getD [] })

/-- The whitespace loop of `JsonParser::skip_whitespace`, with one fuel
unit per iteration. -/
def skipWsAux : Nat → JsonParser → JsonParser
  | 0, p => p
  | n + 1, p =>
    match p.remaining with
    | [] => p
    | c :: _ => if rustIsWhitespace c then skipWsAux n (next_char p).2 else p

/-- `JsonParser::skip_whitespace`: each iteration consumes one character,
so `remaining.length` iterations always suffice. -/
def skip_whitespace (p : JsonParser) : JsonParser :=
  skipWsAux p.remaining.length p

/-- `JsonParser::parse_null` at the cursor level: on an exact prefix
match the position is advanced by 4 bytes and `remaining` recomputed by
slicing. -/
def parse_null (p : JsonParser) : Except String (JsonValue × JsonParser) :=
  if startsWithStr ("null".toList) p.remaining then
    .ok (.null, { input := p.input, position := p.position + 4,
                  remaining := (sliceFrom p.input (p.position + 4)).getD [] })
  else .error ("Invalid null value")

/-- `JsonParser::parse_boolean` at the cursor level: manual advances of 4
bytes for `true` and 5 bytes for `false`. -/
def parse_boolean (p : JsonParser) : Except String (JsonValue × JsonParser) :=
  if startsWithStr ("true".toList) p.remaining then
    .ok (.boolean true, { input := p.input, position := p.position + 4,
                          remaining := (sliceFrom p.input (p.position + 4)).getD [] })
  else if startsWithStr ("false".toList) p.remaining then
    .ok (.boolean false, { input := p.input, position := p.position + 5,
                           remaining := (sliceFrom p.input (p.position + 5)).getD [] })
  else .error ("Invalid boolean value")

/-- The cursor invariant: `remaining` is the suffix of `input` starting at
byte offset `position`, and `position` is the byte length of the consumed
character prefix (hence at most the input's byte length and always on a
character boundary). -/
def Valid (p : JsonParser) : Prop :=
  ∃ pre, p.input = pre ++ p.remaining ∧ p.position = byteLen pre

end JsonParser

/-- Specification-side grammar of the claim for `parse_number` (optional
leading minus, one or more digits, optional dot followed by one or more
digits, optional `e`/`E` with optional sign followed by one or more
digits), written from the claim's words for comparison with the code. -/
def specDigits1 (cs : List Char) : Option (List Char) :=
  match cs.takeWhile isDig with
  | [] => none
  | _ => some (cs.dropWhile isDig)

/-- See `specDigits1`; `true` iff the whole list matches the claimed
number grammar. -/
def specNumberGrammar (cs : List Char) : Bool :=
  let c1 := if startsWithStr (['-']) cs then cs.drop 1 else cs
  match specDigits1 c1 with
  | none => false
  | some c2 =>
    match (if startsWithStr (['.']) c2 then specDigits1 (c2.drop 1) else some c2) with
    | none => false
    | some c3 =>
      match (if startsWithStr (['e']) c3 || startsWithStr (['E']) c3 then
          (if startsWithStr (['+']) (c3.drop 1) || startsWithStr (['-']) (c3.drop 1) then
            specDigits1 (c3.drop 2)
          else specDigits1 (c3.drop 1))
        else some c3) with
      | none => false
      | some c4 => c4.isEmpty

/-- Every `number` node of the value tree holds a non-NaN double (finite
or, for overflowed literals, a signed infinity). -/
inductive NumOk : JsonValue → Prop where
  | null : NumOk .null
  | boolean (b : Bool) : NumOk (.boolean b)
  | string (s : List Char) : NumOk (.string s)
  | number (x : F64) (h : x ≠ .nan) : NumOk (.number x)
  | array (items : List JsonValue) (h : ∀ v ∈ items, NumOk v) : NumOk (.array items)
  | object (entries : List (List Char × JsonValue))
      (h : ∀ kv ∈ entries, NumOk kv.2) : NumOk (.object entries)

/-! ### Basic facts about the scanning primitives -/

theorem skipWs_cons_ws {c : Char} {l : List Char} (h : rustIsWhitespace c = true) :
    skipWs (c :: l) = skipWs l := by
  simp [skipWs, h]

theorem skipWs_cons_not {c : Char} {l : List Char} (h : rustIsWhitespace c = false) :
    skipWs (c :: l) = c :: l := by
  simp [skipWs, h]

theorem skipWs_length_le (l : List Char) : (skipWs l).length ≤ l.length := by
  induction l with
  | nil => simp [skipWs]
  | cons c t ih =>
    by_cases h : rustIsWhitespace c = true
    · rw [skipWs_cons_ws h]; exact Nat.le_succ_of_le ih
    · rw [skipWs_cons_not (by simpa using h)]

theorem skipWs_eq_nil_iff {l : List Char} :
    skipWs l = [] ↔ ∀ c ∈ l, rustIsWhitespace c = true := by
  induction l with
  | nil => simp [skipWs]
  | cons c t ih =>
    by_cases h : rustIsWhitespace c = true
    · rw [skipWs_cons_ws h]; simp [h, ih]
    · rw [skipWs_cons_not (by simpa using h)]; simp [h]

theorem skipWs_head_not_ws {l t : List Char} {c : Char} (h : skipWs l = c :: t) :
    rustIsWhitespace c = false := by
  induction l with
  | nil => simp [skipWs] at h
  | cons c0 t0 ih =>
    by_cases h0 : rustIsWhitespace c0 = true
    · rw [skipWs_cons_ws h0] at h; exact ih h
    · rw [skipWs_cons_not (by simpa using h0)] at h
      cases h; simpa using h0

theorem skipWs_ws_append {w : List Char} (l : List Char)
    (hw : ∀ c ∈ w, rustIsWhitespace c = true) : skipWs (w ++ l) = skipWs l := by
  induction w with
  | nil => simp
  | cons c t ih =>
    have hc := hw c (by simp)
    simp only [List.append_eq, List.cons_append]
    rw [skipWs_cons_ws hc]
    exact ih (fun c h => hw c (by simp [h]))

theorem skipWs_append_of_cons {l t : List Char} {c : Char} (w : List Char)
    (h : skipWs l = c :: t) : skipWs (l ++ w) = c :: (t ++ w) := by
  induction l with
  | nil => simp [skipWs] at h
  | cons c0 t0 ih =>
    by_cases h0 : rustIsWhitespace c0 = true
    · rw [skipWs_cons_ws h0] at h
      simpa [skipWs_cons_ws h0] using ih h
    · rw [skipWs_cons_not (by simpa using h0)] at h
      cases h
      simp only [List.append_eq, List.cons_append]
      rw [skipWs_cons_not (by simpa using h0)]

theorem skipWs_append_nil {l : List Char} (w : List Char) (h : skipWs l = [])
    (hw : ∀ c ∈ w, rustIsWhitespace c = true) : skipWs (l ++ w) = [] := by
  have hl := skipWs_eq_nil_iff.mp h
  rw [skipWs_ws_append w hl]
  exact skipWs_eq_nil_iff.mpr hw

theorem startsWithStr_iff {p l : List Char} :
    startsWithStr p l = true ↔ ∃ t, l = p ++ t := by
  induction p generalizing l with
  | nil => simp [startsWithStr]
  | cons x xs ih =>
    cases l with
    | nil => simp [startsWithStr]
    | cons y ys =>
      simp only [startsWithStr, Bool.and_eq_true, beq_iff_eq, ih, List.cons_append,
        List.cons.injEq]
      constructor
      · rintro ⟨rfl, t, rfl⟩; exact ⟨t, rfl, rfl⟩
      · rintro ⟨t, rfl, rfl⟩; exact ⟨rfl, t, rfl⟩

theorem startsWithStr_append {p l : List Char} (w : List Char)
    (h : startsWithStr p l = true) : startsWithStr p (l ++ w) = true := by
  rcases startsWithStr_iff.mp h with ⟨t, rfl⟩
  exact startsWithStr_iff.mpr ⟨t ++ w, by simp⟩

theorem startsWithStr_single {c : Char} {l : List Char} :
    startsWithStr ([c]) l = true ↔ ∃ t, l = c :: t := by
  rw [startsWithStr_iff]
  constructor
  · rintro ⟨t, rfl⟩; exact ⟨t, rfl⟩
  · rintro ⟨t, rfl⟩; exact ⟨t, rfl⟩

theorem takeWhile_append_dw {p : Char → Bool} (l : List Char) :
    l.takeWhile p ++ l.dropWhile p = l := by
  induction l with
  | nil => simp
  | cons c t ih =>
    by_cases h : p c = true <;>
      simp [List.takeWhile_cons, List.dropWhile_cons, h, ih]

theorem dropWhile_head_false {p : Char → Bool} {l t : List Char} {c : Char}
    (h : l.dropWhile p = c :: t) : p c = false := by
  induction l with
  | nil => simp at h
  | cons c0 t0 ih =>
    by_cases h0 : p c0 = true
    · rw [List.dropWhile_cons, if_pos h0] at h; exact ih h
    · rw [List.dropWhile_cons, if_neg h0] at h
      cases h; simpa using h0

theorem mem_takeWhile_p {p : Char → Bool} {l : List Char} :
    ∀ c ∈ l.takeWhile p, p c = true := by
  induction l with
  | nil => simp
  | cons c0 t0 ih =>
    by_cases h0 : p c0 = true
    · rw [List.takeWhile_cons, if_pos h0]
      intro c hc
      rcases List.mem_cons.mp hc with rfl | hc
      · exact h0
      · exact ih c hc
    · rw [List.takeWhile_cons, if_neg h0]; simp

theorem dropWhile_eq_nil_all {p : Char → Bool} {l : List Char}
    (h : l.dropWhile p = []) : ∀ c ∈ l, p c = true := by
  induction l with
  | nil => simp
  | cons c0 t0 ih =>
    by_cases h0 : p c0 = true
    · rw [List.dropWhile_cons, if_pos h0] at h
      intro c hc
      rcases List.mem_cons.mp hc with rfl | hc
      · exact h0
      · exact ih h c hc
    · rw [List.dropWhile_cons, if_neg h0] at h; cases h

theorem takeWhile_append_pos {p : Char → Bool} {l t : List Char} {c : Char}
    (w : List Char) (h : l.dropWhile p = c :: t) :
    (l ++ w).takeWhile p = l.takeWhile p ∧ (l ++ w).dropWhile p = c :: (t ++ w) := by
  induction l with
  | nil => simp at h
  | cons c0 t0 ih =>
    by_cases h0 : p c0 = true
    · rw [List.dropWhile_cons, if_pos h0] at h
      rcases ih h with ⟨ih1, ih2⟩
      constructor
      · simp only [List.cons_append, List.takeWhile_cons, if_pos h0, ih1]
      · simp only [List.cons_append, List.dropWhile_cons, if_pos h0, ih2]
    · rw [List.dropWhile_cons, if_neg h0] at h
      cases h
      constructor
      · simp only [List.cons_append, List.takeWhile_cons, if_neg h0]
      · simp only [List.cons_append, List.dropWhile_cons, if_neg h0]

theorem takeWhile_append_all {p : Char → Bool} {l : List Char}
    (w : List Char) (h : ∀ c ∈ l, p c = true) :
    (l ++ w).takeWhile p = l ++ w.takeWhile p ∧ (l ++ w).dropWhile p = w.dropWhile p := by
  induction l with
  | nil => simp
  | cons c0 t0 ih =>
    have h0 := h c0 (by simp)
    have ht := ih (fun c hc => h c (by simp [hc]))
    constructor
    · simp only [List.cons_append, List.takeWhile_cons, if_pos h0, ht.1]
    · simp only [List.cons_append, List.dropWhile_cons, if_pos h0, ht.2]

theorem ws_range {c : Char} (h : rustIsWhitespace c = true) :
    c.toNat ≤ 32 ∨ 133 ≤ c.toNat := by
  simp only [rustIsWhitespace, decide_eq_true_eq] at h
  omega

theorem ws_not_dig {c : Char} (h : rustIsWhitespace c = true) : isDig c = false := by
  have := ws_range h
  simp only [isDig, decide_eq_false_iff_not]
  omega

theorem ws_ne {c : Char} (c' : Char) (h : rustIsWhitespace c = true)
    (h2 : 33 ≤ c'.toNat) (h3 : c'.toNat ≤ 126) : c ≠ c' := by
  intro hc
  subst hc
  rcases ws_range h with h4 | h4 <;> omega

/-! ### The string parser's hex-escape loop -/

theorem toDigit16_lt {c : Char} {v : Nat} (h : toDigit16 c = some v) : v < 16 := by
  simp only [toDigit16] at h
  split at h
  · cases h; omega
  · split at h
    · cases h; omega
    · split at h
      · cases h; omega
      · cases h

theorem shl_lor_eq_add (n a b : ℕ) (hb : b < 2 ^ n) : (a <<< n) ||| b = a * 2 ^ n + b := by
  apply Nat.eq_of_testBit_eq
  intro i
  rw [Nat.testBit_lor, Nat.testBit_shiftLeft,
      show a * 2 ^ n = 2 ^ n * a from Nat.mul_comm _ _,
      Nat.testBit_mul_pow_two_add a hb i]
  rcases Nat.lt_or_ge i n with hi | hi
  · simp [Nat.not_le.mpr hi, hi]
  · have h1 : b.testBit i = false :=
      Nat.testBit_lt_two_pow (lt_of_lt_of_le hb (Nat.pow_le_pow_right (by norm_num) hi))
    simp [hi, Nat.not_lt.mpr hi, h1]

theorem hex4_comb {va vb vc vd : ℕ} (_ha : va < 16) (hb : vb < 16) (hc : vc < 16)
    (hd : vd < 16) :
    (((0 ||| (va <<< (3 * 4))) ||| (vb <<< (2 * 4))) ||| (vc <<< (1 * 4))) |||
        (vd <<< (0 * 4)) =
      ((va * 16 + vb) * 16 + vc) * 16 + vd := by
  have h0 : (0 : ℕ) ||| (va <<< (3 * 4)) = va <<< 12 := by
    rw [Nat.lor_comm]; simp
  have e0 : vd <<< (0 * 4) = vd := by simp
  rw [h0, Nat.lor_assoc, Nat.lor_assoc, e0]
  have e1 : (vc <<< (1 * 4)) ||| vd = vc * 2 ^ 4 + vd := by
    rw [show (1 * 4 : ℕ) = 4 by norm_num]
    exact shl_lor_eq_add 4 vc vd (by omega)
  rw [e1]
  have e2 : (vb <<< (2 * 4)) ||| (vc * 2 ^ 4 + vd) = vb * 2 ^ 8 + (vc * 2 ^ 4 + vd) := by
    rw [show (2 * 4 : ℕ) = 8 by norm_num]
    refine shl_lor_eq_add 8 vb _ ?_
    have : (2 : ℕ) ^ 4 = 16 := by norm_num
    rw [this]
    norm_num
    omega
  rw [e2]
  have e3 : (va <<< 12) ||| (vb * 2 ^ 8 + (vc * 2 ^ 4 + vd)) =
      va * 2 ^ 12 + (vb * 2 ^ 8 + (vc * 2 ^ 4 + vd)) := by
    refine shl_lor_eq_add 12 va _ ?_
    have h4 : (2 : ℕ) ^ 4 = 16 := by norm_num
    have h8 : (2 : ℕ) ^ 8 = 256 := by norm_num
    have h12 : (2 : ℕ) ^ 12 = 4096 := by norm_num
    rw [h4, h8, h12]
    omega
  rw [e3]
  have h4 : (2 : ℕ) ^ 4 = 16 := by norm_num
  have h8 : (2 : ℕ) ^ 8 = 256 := by norm_num
  have h12 : (2 : ℕ) ^ 12 = 4096 := by norm_num
  rw [h4, h8, h12]
  ring

theorem readHexLoop_length {i code : Nat} {rem rem' : List Char} {cd : Nat}
    (h : readHexLoop i code rem = .ok (cd, rem')) : rem.length = i + rem'.length := by
  induction i generalizing code rem with
  | zero => cases h; omega
  | succ n ih =>
    cases rem with
    | nil => simp [readHexLoop] at h
    | cons c rest =>
      simp only [readHexLoop] at h
      cases hd : toDigit16 c with
      | none => rw [hd] at h; cases h
      | some d =>
        rw [hd] at h
        simp only at h
        have := ih h
        simp only [List.length_cons]
        omega

theorem readHexLoop_append {i code : Nat} {rem rem' : List Char} {cd : Nat}
    (w : List Char) (h : readHexLoop i code rem = .ok (cd, rem')) :
    readHexLoop i code (rem ++ w) = .ok (cd, rem' ++ w) := by
  induction i generalizing code rem with
  | zero => cases h; rfl
  | succ n ih =>
    cases rem with
    | nil => simp [readHexLoop] at h
    | cons c rest =>
      simp only [readHexLoop] at h
      cases hd : toDigit16 c with
      | none => rw [hd] at h; simp at h
      | some d =>
        rw [hd] at h
        simp only at h
        simp only [List.cons_append, readHexLoop, hd]
        exact ih h

theorem readHexLoop_err {i code : Nat} {rem : List Char}
    (h : rem.length < i ∨ ∃ c ∈ rem.take i, toDigit16 c = none) :
    ∃ e, readHexLoop i code rem = .error e := by
  induction i generalizing code rem with
  | zero =>
    rcases h with h | ⟨c, hc, _⟩
    · omega
    · simp at hc
  | succ n ih =>
    cases rem with
    | nil => exact ⟨_, rfl⟩
    | cons c rest =>
      simp only [readHexLoop]
      cases hd : toDigit16 c with
      | none => exact ⟨_, rfl⟩
      | some d =>
        simp only
        apply ih
        rcases h with h | ⟨c0, hc0, hc0n⟩
        · left; simpa using h
        · simp only [List.take_succ_cons, List.mem_cons] at hc0
          rcases hc0 with rfl | hc0
          · rw [hd] at hc0n; cases hc0n
          · right; exact ⟨c0, hc0, hc0n⟩

/-! ### The string parser's character loop -/

theorem psLoop_length {f : Nat} {acc rem : List Char} {v : JsonValue} {rem' : List Char}
    (h : psLoop f acc rem = .ok v rem') : rem'.length < rem.length := by
  induction f generalizing acc rem with
  | zero =>
    cases rem with
    | nil => simp [psLoop] at h
    | cons c rest => simp [psLoop] at h
  | succ n ih =>
    cases rem with
    | nil => simp [psLoop] at h
    | cons c rest =>
      simp only [psLoop] at h
      by_cases hq : c = '"'
      · rw [if_pos hq] at h
        cases h
        simp
      · rw [if_neg hq] at h
        by_cases hbk : c = '\\'
        · rw [if_pos hbk] at h
          cases rest with
          | nil => simp at h
          | cons e rest2 =>
            simp only at h
            by_cases h1 : e = '"'
            · rw [if_pos h1] at h
              have := ih h; simp only [List.length_cons]; omega
            · rw [if_neg h1] at h
              by_cases h2 : e = '\\'
              · rw [if_pos h2] at h
                have := ih h; simp only [List.length_cons]; omega
              · rw [if_neg h2] at h
                by_cases h3 : e = '/'
                · rw [if_pos h3] at h
                  have := ih h; simp only [List.length_cons]; omega
                · rw [if_neg h3] at h
                  by_cases h4 : e = 'b'
                  · rw [if_pos h4] at h
                    have := ih h; simp only [List.length_cons]; omega
                  · rw [if_neg h4] at h
                    by_cases h5 : e = 'f'
                    · rw [if_pos h5] at h
                      have := ih h; simp only [List.length_cons]; omega
                    · rw [if_neg h5] at h
                      by_cases h6 : e = 'n'
                      · rw [if_pos h6] at h
                        have := ih h; simp only [List.length_cons]; omega
                      · rw [if_neg h6] at h
                        by_cases h7 : e = 'r'
                        · rw [if_pos h7] at h
                          have := ih h; simp only [List.length_cons]; omega
                        · rw [if_neg h7] at h
                          by_cases h8 : e = 't'
                          · rw [if_pos h8] at h
                            have := ih h; simp only [List.length_cons]; omega
                          · rw [if_neg h8] at h
                            by_cases h9 : e = 'u'
                            · rw [if_pos h9] at h
                              cases hhex : readHexLoop 4 0 rest2 with
                              | ok pr =>
                                obtain ⟨code, rest3⟩ := pr
                                try rw [hhex] at h
                                try simp only at h
                                cases hch : charFromU32 code with
                                | some ch =>
                                  try rw [hch] at h
                                  try simp only at h
                                  have hl1 := ih h
                                  have hl2 := readHexLoop_length hhex
                                  simp only [List.length_cons]
                                  omega
                                | none =>
                                  try rw [hch] at h
                                  simp at h
                              | error msg =>
                                try rw [hhex] at h
                                simp at h
                            · rw [if_neg h9] at h
                              simp at h
        · rw [if_neg hbk] at h
          have := ih h
          simp only [List.length_cons]
          omega

theorem psLoop_append {f : Nat} {acc rem : List Char} {v : JsonValue} {rem' : List Char}
    (w : List Char) (h : psLoop f acc rem = .ok v rem') :
    psLoop f acc (rem ++ w) = .ok v (rem' ++ w) := by
  induction f generalizing acc rem with
  | zero =>
    cases rem with
    | nil => simp [psLoop] at h
    | cons c rest => simp [psLoop] at h
  | succ n ih =>
    cases rem with
    | nil => simp [psLoop] at h
    | cons c rest =>
      simp only [psLoop] at h
      simp only [List.append_eq, List.cons_append, psLoop]
      by_cases hq : c = '"'
      · rw [if_pos hq] at h
        rw [if_pos hq]
        cases h
        rfl
      · rw [if_neg hq] at h
        rw [if_neg hq]
        by_cases hbk : c = '\\'
        · rw [if_pos hbk] at h
          rw [if_pos hbk]
          cases rest with
          | nil => simp at h
          | cons e rest2 =>
            simp only [List.append_eq, List.cons_append]
            simp only at h
            by_cases h1 : e = '"'
            · rw [if_pos h1] at h
              rw [if_pos h1]
              exact ih h
            · rw [if_neg h1] at h
              rw [if_neg h1]
              by_cases h2 : e = '\\'
              · rw [if_pos h2] at h
                rw [if_pos h2]
                exact ih h
              · rw [if_neg h2] at h
                rw [if_neg h2]
                by_cases h3 : e = '/'
                · rw [if_pos h3] at h
                  rw [if_pos h3]
                  exact ih h
                · rw [if_neg h3] at h
                  rw [if_neg h3]
                  by_cases h4 : e = 'b'
                  · rw [if_pos h4] at h
                    rw [if_pos h4]
                    exact ih h
                  · rw [if_neg h4] at h
                    rw [if_neg h4]
                    by_cases h5 : e = 'f'
                    · rw [if_pos h5] at h
                      rw [if_pos h5]
                      exact ih h
                    · rw [if_neg h5] at h
                      rw [if_neg h5]
                      by_cases h6 : e = 'n'
                      · rw [if_pos h6] at h
                        rw [if_pos h6]
                        exact ih h
                      · rw [if_neg h6] at h
                        rw [if_neg h6]
                        by_cases h7 : e = 'r'
                        · rw [if_pos h7] at h
                          rw [if_pos h7]
                          exact ih h
                        · rw [if_neg h7] at h
                          rw [if_neg h7]
                          by_cases h8 : e = 't'
                          · rw [if_pos h8] at h
                            rw [if_pos h8]
                            exact ih h
                          · rw [if_neg h8] at h
                            rw [if_neg h8]
                            by_cases h9 : e = 'u'
                            · rw [if_pos h9] at h
                              rw [if_pos h9]
                              cases hhex : readHexLoop 4 0 rest2 with
                              | ok pr =>
                                obtain ⟨code, rest3⟩ := pr
                                try rw [hhex] at h
                                try simp only at h
                                rw [readHexLoop_append w hhex]
                                simp only
                                cases hch : charFromU32 code with
                                | some ch =>
                                  try rw [hch] at h
                                  try simp only at h
                                  try rw [hch]
                                  try simp only
                                  exact ih h
                                | none =>
                                  try rw [hch] at h
                                  simp at h
                              | error msg =>
                                try rw [hhex] at h
                                simp at h
                            · rw [if_neg h9] at h
                              simp at h
        · rw [if_neg hbk] at h
          rw [if_neg hbk]
          exact ih h

theorem psLoop_mono {f g : Nat} {acc rem : List Char} {v : JsonValue} {rem' : List Char}
    (hfg : f ≤ g) (h : psLoop f acc rem = .ok v rem') : psLoop g acc rem = .ok v rem' := by
  induction f generalizing g acc rem with
  | zero =>
    cases rem with
    | nil => simp [psLoop] at h
    | cons c rest => simp [psLoop] at h
  | succ n ih =>
    cases rem with
    | nil =>
      simp only [psLoop] at h
      cases h
    | cons c rest =>
      obtain ⟨m, rfl⟩ : ∃ m, g = m + 1 := ⟨g - 1, by omega⟩
      have hnm : n ≤ m := by omega
      simp only [psLoop] at h ⊢
      by_cases hq : c = '"'
      · rw [if_pos hq] at h ⊢
        exact h
      · rw [if_neg hq] at h ⊢
        by_cases hbk : c = '\\'
        · rw [if_pos hbk] at h ⊢
          cases rest with
          | nil => simp at h
          | cons e rest2 =>
            simp only at h ⊢
            by_cases h1 : e = '"'
            · rw [if_pos h1] at h ⊢
              exact ih hnm h
            · rw [if_neg h1] at h ⊢
              by_cases h2 : e = '\\'
              · rw [if_pos h2] at h ⊢
                exact ih hnm h
              · rw [if_neg h2] at h ⊢
                by_cases h3 : e = '/'
                · rw [if_pos h3] at h ⊢
                  exact ih hnm h
                · rw [if_neg h3] at h ⊢
                  by_cases h4 : e = 'b'
                  · rw [if_pos h4] at h ⊢
                    exact ih hnm h
                  · rw [if_neg h4] at h ⊢
                    by_cases h5 : e = 'f'
                    · rw [if_pos h5] at h ⊢
                      exact ih hnm h
                    · rw [if_neg h5] at h ⊢
                      by_cases h6 : e = 'n'
                      · rw [if_pos h6] at h ⊢
                        exact ih hnm h
                      · rw [if_neg h6] at h ⊢
                        by_cases h7 : e = 'r'
                        · rw [if_pos h7] at h ⊢
                          exact ih hnm h
                        · rw [if_neg h7] at h ⊢
                          by_cases h8 : e = 't'
                          · rw [if_pos h8] at h ⊢
                            exact ih hnm h
                          · rw [if_neg h8] at h ⊢
                            by_cases h9 : e = 'u'
                            · rw [if_pos h9] at h ⊢
                              cases hhex : readHexLoop 4 0 rest2 with
                              | ok pr =>
                                obtain ⟨code, rest3⟩ := pr
                                try rw [hhex] at h
                                try rw [hhex]
                                try simp only at h
                                try simp only
                                cases hch : charFromU32 code with
                                | some ch =>
                                  try rw [hch] at h
                                  try rw [hch]
                                  try simp only at h
                                  try simp only
                                  exact ih hnm h
                                | none =>
                                  try rw [hch] at h
                                  simp at h
                              | error msg =>
                                try rw [hhex] at h
                                simp at h
                            · rw [if_neg h9] at h
                              simp at h
        · rw [if_neg hbk] at h ⊢
          exact ih hnm h

theorem psLoop_nofuel {f : Nat} {acc rem : List Char} (hf : rem.length ≤ f) :
    psLoop f acc rem ≠ .fuel := by
  induction f generalizing acc rem with
  | zero =>
    cases rem with
    | nil => simp [psLoop]
    | cons c rest => simp at hf
  | succ n ih =>
    cases rem with
    | nil => simp [psLoop]
    | cons c rest =>
      have hr : rest.length ≤ n := by
        simp only [List.length_cons] at hf
        omega
      simp only [psLoop]
      by_cases hq : c = '"'
      · rw [if_pos hq]
        simp
      · rw [if_neg hq]
        by_cases hbk : c = '\\'
        · rw [if_pos hbk]
          cases rest with
          | nil => simp
          | cons e rest2 =>
            have hr2 : rest2.length ≤ n := by
              simp only [List.length_cons] at hr
              omega
            simp only
            by_cases h1 : e = '"'
            · rw [if_pos h1]
              exact ih hr2
            · rw [if_neg h1]
              by_cases h2 : e = '\\'
              · rw [if_pos h2]
                exact ih hr2
              · rw [if_neg h2]
                by_cases h3 : e = '/'
                · rw [if_pos h3]
                  exact ih hr2
                · rw [if_neg h3]
                  by_cases h4 : e = 'b'
                  · rw [if_pos h4]
                    exact ih hr2
                  · rw [if_neg h4]
                    by_cases h5 : e = 'f'
                    · rw [if_pos h5]
                      exact ih hr2
                    · rw [if_neg h5]
                      by_cases h6 : e = 'n'
                      · rw [if_pos h6]
                        exact ih hr2
                      · rw [if_neg h6]
                        by_cases h7 : e = 'r'
                        · rw [if_pos h7]
                          exact ih hr2
                        · rw [if_neg h7]
                          by_cases h8 : e = 't'
                          · rw [if_pos h8]
                            exact ih hr2
                          · rw [if_neg h8]
                            by_cases h9 : e = 'u'
                            · rw [if_pos h9]
                              cases hhex : readHexLoop 4 0 rest2 with
                              | ok pr =>
                                obtain ⟨code, rest3⟩ := pr
                                have hl2 := readHexLoop_length hhex
                                try rw [hhex]
                                try simp only
                                cases hch : charFromU32 code with
                                | some ch =>
                                  try rw [hch]
                                  try simp only
                                  exact ih (by omega)
                                | none =>
                                  try rw [hch]
                                  simp
                              | error msg =>
                                try rw [hhex]
                                simp
                            · rw [if_neg h9]
                              simp
        · rw [if_neg hbk]
          exact ih hr

/-! ### Shapes of the leaf parsers -/

theorem parse_null_ok {rem : List Char} {v : JsonValue} {rem' : List Char}
    (h : parse_null rem = .ok v rem') :
    v = .null ∧ ∃ t, rem = 'n' :: 'u' :: 'l' :: 'l' :: t ∧ rem' = t := by
  simp only [parse_null] at h
  split at h
  · rename_i hp
    rcases startsWithStr_iff.mp hp with ⟨t, rfl⟩
    cases h
    exact ⟨rfl, t, rfl, rfl⟩
  · cases h

theorem parse_boolean_ok {rem : List Char} {v : JsonValue} {rem' : List Char}
    (h : parse_boolean rem = .ok v rem') :
    (v = .boolean true ∧ ∃ t, rem = 't' :: 'r' :: 'u' :: 'e' :: t ∧ rem' = t) ∨
    (v = .boolean false ∧
      ∃ t, rem = 'f' :: 'a' :: 'l' :: 's' :: 'e' :: t ∧ rem' = t) := by
  simp only [parse_boolean] at h
  split at h
  · rename_i hp
    rcases startsWithStr_iff.mp hp with ⟨t, rfl⟩
    cases h
    exact Or.inl ⟨rfl, t, rfl, rfl⟩
  · split at h
    · rename_i hp
      rcases startsWithStr_iff.mp hp with ⟨t, rfl⟩
      cases h
      exact Or.inr ⟨rfl, t, rfl, rfl⟩
    · cases h

theorem parse_null_length {rem : List Char} {v : JsonValue} {rem' : List Char}
    (h : parse_null rem = .ok v rem') : rem'.length < rem.length := by
  rcases parse_null_ok h with ⟨-, t, rfl, rfl⟩
  simp only [List.length_cons]
  omega

theorem parse_boolean_length {rem : List Char} {v : JsonValue} {rem' : List Char}
    (h : parse_boolean rem = .ok v rem') : rem'.length < rem.length := by
  rcases parse_boolean_ok h with ⟨-, t, rfl, rfl⟩ | ⟨-, t, rfl, rfl⟩ <;>
    · simp only [List.length_cons]
      omega

theorem parse_string_length {rem : List Char} {v : JsonValue} {rem' : List Char}
    (h : parse_string rem = .ok v rem') : rem'.length < rem.length := by
  simp only [parse_string] at h
  have h1 := psLoop_length h
  cases rem with
  | nil => simp at h1
  | cons c rest =>
    simp at h1
    simp only [List.length_cons]
    omega

theorem parse_string_append {rem : List Char} {v : JsonValue} {rem' : List Char}
    (w : List Char) (h : parse_string rem = .ok v rem') :
    parse_string (rem ++ w) = .ok v (rem' ++ w) := by
  simp only [parse_string] at h ⊢
  cases rem with
  | nil => simp at h; exact absurd h (by simp [psLoop])
  | cons c rest =>
    simp only [List.drop_one, List.tail_cons] at h ⊢
    simp only [List.cons_append, List.tail_cons]
    have h2 := psLoop_append w h
    exact psLoop_mono (by simp) h2

theorem parse_null_append {rem : List Char} {v : JsonValue} {rem' : List Char}
    (w : List Char) (h : parse_null rem = .ok v rem') :
    parse_null (rem ++ w) = .ok v (rem' ++ w) := by
  rcases parse_null_ok h with ⟨rfl, t, rfl, rfl⟩
  simp only [parse_null, List.cons_append]
  rw [if_pos (by exact startsWithStr_iff.mpr ⟨rem' ++ w, by simp [String.toList]⟩)]
  rfl

theorem parse_boolean_append {rem : List Char} {v : JsonValue} {rem' : List Char}
    (w : List Char) (h : parse_boolean rem = .ok v rem') :
    parse_boolean (rem ++ w) = .ok v (rem' ++ w) := by
  rcases parse_boolean_ok h with ⟨rfl, t, rfl, rfl⟩ | ⟨rfl, t, rfl, rfl⟩
  · simp only [parse_boolean, List.cons_append]
    rw [if_pos (by exact startsWithStr_iff.mpr ⟨rem' ++ w, by simp [String.toList]⟩)]
    rfl
  · simp only [parse_boolean, List.cons_append]
    rw [if_neg (by
      simp only [startsWithStr_iff]
      rintro ⟨t2, ht2⟩
      simp [String.toList] at ht2)]
    rw [if_pos (by exact startsWithStr_iff.mpr ⟨rem' ++ w, by simp [String.toList]⟩)]
    rfl

/-! ### Shapes of the number scanning helpers -/

theorem scanSign_shape {s sg r1 : List Char} (h : scanSign s = (sg, r1)) :
    s = sg ++ r1 ∧ (sg = [] ∨ sg = ['-']) := by
  simp only [scanSign] at h
  split at h
  · rename_i hp
    rcases startsWithStr_single.mp hp with ⟨t, rfl⟩
    cases h
    simp
  · cases h
    simp

/-! ### Whitespace suffix facts -/

theorem ws_take_drop {w : List Char} (hw : ∀ c ∈ w, rustIsWhitespace c = true) :
    w.takeWhile isDig = [] ∧ w.dropWhile isDig = w := by
  cases w with
  | nil => simp
  | cons c t =>
    have hc := ws_not_dig (hw c (by simp))
    simp [List.takeWhile_cons, List.dropWhile_cons, hc]

theorem ws_not_startsWith {w : List Char} (hw : ∀ c ∈ w, rustIsWhitespace c = true)
    (cq : Char) (h2 : 33 ≤ cq.toNat) (h3 : cq.toNat ≤ 126) :
    startsWithStr ([cq]) w = false := by
  cases w with
  | nil => rfl
  | cons c t =>
    have hne := ws_ne cq (hw c (by simp)) h2 h3
    simp only [startsWithStr, Bool.and_eq_false_iff]
    left
    simp only [beq_eq_false_iff_ne, ne_eq]
    intro hcc
    exact hne hcc.symm

theorem sw_append_ws {t w : List Char} {cq : Char}
    (hw : ∀ c ∈ w, rustIsWhitespace c = true) (h2 : 33 ≤ cq.toNat) (h3 : cq.toNat ≤ 126) :
    startsWithStr ([cq]) (t ++ w) = startsWithStr ([cq]) t := by
  cases t with
  | nil =>
    rw [List.nil_append, ws_not_startsWith hw cq h2 h3]
    rfl
  | cons c t2 => simp [startsWithStr]

theorem tw_dw_append_ws {l w : List Char} (hw : ∀ c ∈ w, rustIsWhitespace c = true) :
    (l ++ w).takeWhile isDig = l.takeWhile isDig ∧
      (l ++ w).dropWhile isDig = l.dropWhile isDig ++ w := by
  cases hdw : l.dropWhile isDig with
  | nil =>
    have hall := dropWhile_eq_nil_all hdw
    have htt : l.takeWhile isDig = l := by
      have := takeWhile_append_dw (p := isDig) l
      rw [hdw] at this
      simpa using this
    have hext := takeWhile_append_all (p := isDig) w hall
    have hwt := ws_take_drop hw
    refine ⟨?_, ?_⟩
    · rw [hext.1, hwt.1, List.append_nil, htt]
    · rw [hext.2, hwt.2, List.nil_append]
  | cons c t =>
    have hext := takeWhile_append_pos (p := isDig) w hdw
    exact ⟨hext.1, by rw [hext.2]; rfl⟩

/-! ### Shapes of the number scanning steps -/

theorem scanFrac_shape {r fr r3 : List Char} (h : scanFrac r = .ok (fr, r3)) :
    r = fr ++ r3 ∧
      (fr = [] ∨ ∃ ds2, fr = '.' :: ds2 ∧ ds2 ≠ [] ∧ ∀ c ∈ ds2, isDig c = true) := by
  simp only [scanFrac] at h
  split at h
  · rename_i hp
    rcases startsWithStr_single.mp hp with ⟨t, rfl⟩
    simp only [List.drop_one, List.tail_cons] at h
    cases hds : t.takeWhile isDig with
    | nil => rw [hds] at h; simp at h
    | cons d ds =>
      rw [hds] at h
      simp only at h
      cases h
      constructor
      · have hdd : (d :: ds) ++ t.dropWhile isDig = t := by
          rw [← hds]
          exact takeWhile_append_dw t
        conv_lhs => rw [← hdd]
        simp
      · right
        refine ⟨d :: ds, rfl, by simp, ?_⟩
        intro c hc
        rw [← hds] at hc
        exact mem_takeWhile_p c hc
  · cases h
    simp

theorem scanExp_shape {r ex r3 : List Char} (h : scanExp r = .ok (ex, r3)) :
    r = ex ++ r3 ∧
      (ex = [] ∨ ∃ e sg2 ds3, ex = e :: (sg2 ++ ds3) ∧ (e = 'e' ∨ e = 'E') ∧
        (sg2 = [] ∨ sg2 = ['+'] ∨ sg2 = ['-']) ∧ ds3 ≠ [] ∧ ∀ c ∈ ds3, isDig c = true) := by
  simp only [scanExp] at h
  split at h
  · rename_i hp
    have he : ∃ e t, r = e :: t ∧ (e = 'e' ∨ e = 'E') := by
      rcases Bool.or_eq_true_iff.mp hp with h1 | h1
      · rcases startsWithStr_single.mp h1 with ⟨t, rfl⟩
        exact ⟨_, t, rfl, Or.inl rfl⟩
      · rcases startsWithStr_single.mp h1 with ⟨t, rfl⟩
        exact ⟨_, t, rfl, Or.inr rfl⟩
    rcases he with ⟨e, t, rfl, hee⟩
    simp only [List.drop_one, List.tail_cons, List.take_succ_cons, List.take_zero] at h
    by_cases hsg : (startsWithStr (['+']) t || startsWithStr (['-']) t) = true
    · rw [if_pos hsg] at h
      have hs2 : ∃ s0 t2, t = s0 :: t2 ∧ (s0 = '+' ∨ s0 = '-') := by
        rcases Bool.or_eq_true_iff.mp hsg with h1 | h1
        · rcases startsWithStr_single.mp h1 with ⟨t2, rfl⟩
          exact ⟨_, t2, rfl, Or.inl rfl⟩
        · rcases startsWithStr_single.mp h1 with ⟨t2, rfl⟩
          exact ⟨_, t2, rfl, Or.inr rfl⟩
      rcases hs2 with ⟨s0, t2, rfl, hss⟩
      simp only [List.take_succ_cons, List.take_zero, List.drop_one, List.tail_cons] at h
      cases hds : t2.takeWhile isDig with
      | nil => rw [hds] at h; simp at h
      | cons d ds =>
        rw [hds] at h
        simp only at h
        cases h
        constructor
        · have hdd : (d :: ds) ++ t2.dropWhile isDig = t2 := by
            rw [← hds]
            exact takeWhile_append_dw t2
          conv_lhs => rw [← hdd]
          rw [if_pos hsg] <;> simp
        · right
          refine ⟨e, [s0], d :: ds,
            by rw [if_pos hsg] <;> simp, hee, ?_, by simp, ?_⟩
          · rcases hss with rfl | rfl
            · exact Or.inr (Or.inl rfl)
            · exact Or.inr (Or.inr rfl)
          · intro c hc
            rw [← hds] at hc
            exact mem_takeWhile_p c hc
    · rw [if_neg hsg] at h
      cases hds : t.takeWhile isDig with
      | nil => rw [hds] at h; simp at h
      | cons d ds =>
        rw [hds] at h
        simp only at h
        cases h
        constructor
        · have hdd : (d :: ds) ++ t.dropWhile isDig = t := by
            rw [← hds]
            exact takeWhile_append_dw t
          conv_lhs => rw [← hdd]
          rw [if_neg hsg] <;> simp
        · right
          refine ⟨e, [], d :: ds, by rw [if_neg hsg] <;> simp, hee, Or.inl rfl,
            by simp, ?_⟩
          intro c hc
          rw [← hds] at hc
          exact mem_takeWhile_p c hc
  · cases h
    simp

/-! ### Whitespace extension of the number scanning steps -/

theorem scanSign_append {s sg r1 : List Char} (w : List Char) (hs : s ≠ [])
    (h : scanSign s = (sg, r1)) : scanSign (s ++ w) = (sg, r1 ++ w) := by
  simp only [scanSign] at h ⊢
  split at h
  · rename_i hp
    rcases startsWithStr_single.mp hp with ⟨t, rfl⟩
    cases h
    rw [List.cons_append, if_pos (by exact startsWithStr_iff.mpr ⟨t ++ w, by simp⟩)]
    rfl
  · rename_i hp
    cases h
    cases s with
    | nil => exact absurd rfl hs
    | cons c t =>
      rw [List.cons_append, if_neg (by simpa [startsWithStr] using hp)]

theorem scanFrac_append {r fr r3 w : List Char}
    (hw : ∀ c ∈ w, rustIsWhitespace c = true) (h : scanFrac r = .ok (fr, r3)) :
    scanFrac (r ++ w) = .ok (fr, r3 ++ w) := by
  simp only [scanFrac] at h ⊢
  split at h
  · rename_i hp
    rcases startsWithStr_single.mp hp with ⟨t, rfl⟩
    rw [List.cons_append, if_pos (by exact startsWithStr_iff.mpr ⟨t ++ w, by simp⟩)]
    simp only [List.drop_one, List.tail_cons] at h ⊢
    rw [(tw_dw_append_ws hw).1, (tw_dw_append_ws hw).2]
    cases hds : t.takeWhile isDig with
    | nil =>
      try rw [hds] at h
      simp at h
    | cons d ds =>
      try rw [hds] at h
      try rw [hds]
      simp only at h ⊢
      cases h
      rfl
  · rename_i hp
    cases h
    have hcond : startsWithStr (['.']) (r ++ w) = false := by
      rw [sw_append_ws hw (by decide) (by decide)]
      simpa using hp
    rw [if_neg (by simp [hcond])]

theorem scanExp_append {r ex r3 w : List Char}
    (hw : ∀ c ∈ w, rustIsWhitespace c = true) (h : scanExp r = .ok (ex, r3)) :
    scanExp (r ++ w) = .ok (ex, r3 ++ w) := by
  simp only [scanExp] at h ⊢
  split at h
  · rename_i hp
    have he : ∃ e t, r = e :: t ∧ (e = 'e' ∨ e = 'E') := by
      rcases Bool.or_eq_true_iff.mp hp with h1 | h1
      · rcases startsWithStr_single.mp h1 with ⟨t, rfl⟩
        exact ⟨_, t, rfl, Or.inl rfl⟩
      · rcases startsWithStr_single.mp h1 with ⟨t, rfl⟩
        exact ⟨_, t, rfl, Or.inr rfl⟩
    rcases he with ⟨e, t, rfl, hee⟩
    rw [List.cons_append, if_pos (by
      rcases hee with rfl | rfl
      · exact Bool.or_eq_true_iff.mpr (Or.inl (startsWithStr_iff.mpr ⟨t ++ w, by simp⟩))
      · exact Bool.or_eq_true_iff.mpr (Or.inr (startsWithStr_iff.mpr ⟨t ++ w, by simp⟩)))]
    simp only [List.drop_one, List.tail_cons, List.take_succ_cons, List.take_zero] at h ⊢
    by_cases hsg : (startsWithStr (['+']) t || startsWithStr (['-']) t) = true
    · rw [if_pos hsg] at h
      have hs2 : ∃ s0 t2, t = s0 :: t2 ∧ (s0 = '+' ∨ s0 = '-') := by
        rcases Bool.or_eq_true_iff.mp hsg with h1 | h1
        · rcases startsWithStr_single.mp h1 with ⟨t2, rfl⟩
          exact ⟨_, t2, rfl, Or.inl rfl⟩
        · rcases startsWithStr_single.mp h1 with ⟨t2, rfl⟩
          exact ⟨_, t2, rfl, Or.inr rfl⟩
      rcases hs2 with ⟨s0, t2, rfl, hss⟩
      rw [List.cons_append, if_pos (by
        rcases hss with rfl | rfl
        · exact Bool.or_eq_true_iff.mpr (Or.inl (startsWithStr_iff.mpr ⟨t2 ++ w, by simp⟩))
        · exact Bool.or_eq_true_iff.mpr (Or.inr (startsWithStr_iff.mpr ⟨t2 ++ w, by simp⟩)))]
      simp only [List.take_succ_cons, List.take_zero, List.drop_one, List.tail_cons] at h ⊢
      rw [(tw_dw_append_ws hw).1, (tw_dw_append_ws hw).2]
      cases hds : t2.takeWhile isDig with
      | nil =>
        try rw [hds] at h
        simp at h
      | cons d ds =>
        try rw [hds] at h
        try rw [hds]
        simp only at h ⊢
        cases h
        rfl
    · rw [if_neg hsg] at h
      have hplus : startsWithStr (['+']) (t ++ w) = startsWithStr (['+']) t :=
        sw_append_ws hw (by decide) (by decide)
      have hminus : startsWithStr (['-']) (t ++ w) = startsWithStr (['-']) t :=
        sw_append_ws hw (by decide) (by decide)
      rw [if_neg (by
        rw [hplus, hminus]
        exact hsg)]
      rw [(tw_dw_append_ws hw).1, (tw_dw_append_ws hw).2]
      cases hds : t.takeWhile isDig with
      | nil =>
        try rw [hds] at h
        simp at h
      | cons d ds =>
        try rw [hds] at h
        try rw [hds]
        simp only at h ⊢
        cases h
        have hsg2 : ¬(startsWithStr (['+']) (t ++ w) || startsWithStr (['-']) (t ++ w)) = true := by
          rw [hplus, hminus]
          exact hsg
        rw [if_neg hsg2, if_neg hsg]
  · rename_i hp
    cases h
    have he : startsWithStr (['e']) (r ++ w) = startsWithStr (['e']) r :=
      sw_append_ws hw (by decide) (by decide)
    have hE : startsWithStr (['E']) (r ++ w) = startsWithStr (['E']) r :=
      sw_append_ws hw (by decide) (by decide)
    rw [if_neg (by
      rw [he, hE]
      exact hp)]

/-! ### The number parser -/

theorem mkF64_ne_nan (neg eneg : Bool) (ds1 ds2 ds3 : List Char) :
    mkF64 neg eneg ds1 ds2 ds3 ≠ .nan := by
  unfold mkF64
  lift_lets
  extract_lets m e num den
  split <;> simp

theorem rustParseF64_not_nan {s : List Char} {x : F64} (h : rustParseF64 s = some x) :
    x ≠ .nan := by
  unfold rustParseF64 at h
  lift_lets at h
  extract_lets neg s1 ds1 r1 hasDot ds2 r2 hasE r3 eneg r4 ds3 r5 at h
  split at h
  · cases h
  · cases h
    exact mkF64_ne_nan _ _ _ _ _

theorem parse_number_shape {s : List Char} {v : JsonValue} {r6 : List Char}
    (h : parse_number s = .ok v r6) :
    ∃ sg ds1 fr ex x,
      s = sg ++ (ds1 ++ (fr ++ (ex ++ r6))) ∧
      (sg = [] ∨ sg = ['-']) ∧ ds1 ≠ [] ∧ (∀ c ∈ ds1, isDig c = true) ∧
      (fr = [] ∨ ∃ ds2, fr = '.' :: ds2 ∧ ds2 ≠ [] ∧ ∀ c ∈ ds2, isDig c = true) ∧
      (ex = [] ∨ ∃ e sg2 ds3, ex = e :: (sg2 ++ ds3) ∧ (e = 'e' ∨ e = 'E') ∧
        (sg2 = [] ∨ sg2 = ['+'] ∨ sg2 = ['-']) ∧ ds3 ≠ [] ∧ ∀ c ∈ ds3, isDig c = true) ∧
      v = .number x ∧ rustParseF64 (sg ++ (ds1 ++ (fr ++ ex))) = some x := by
  simp only [parse_number] at h
  rcases hss : scanSign s with ⟨sg, r1⟩
  rw [hss] at h
  simp only at h
  cases hds1 : r1.takeWhile isDig with
  | nil => rw [hds1] at h; simp at h
  | cons d1 t1 =>
    rw [hds1] at h
    simp only at h
    cases hsf : scanFrac (r1.dropWhile isDig) with
    | error m => rw [hsf] at h; simp at h
    | ok pr =>
      obtain ⟨fr, r3⟩ := pr
      rw [hsf] at h
      simp only at h
      cases hse : scanExp r3 with
      | error m => rw [hse] at h; simp at h
      | ok pr2 =>
        obtain ⟨ex, r6x⟩ := pr2
        rw [hse] at h
        simp only at h
        cases hcv : rustParseF64 (sg ++ ((d1 :: t1) ++ (fr ++ ex))) with
        | none => rw [hcv] at h; simp at h
        | some x =>
          rw [hcv] at h
          simp only at h
          cases h
          have hs1 := scanSign_shape hss
          have hf1 := scanFrac_shape hsf
          have he1 := scanExp_shape hse
          refine ⟨sg, d1 :: t1, fr, ex, x, ?_, hs1.2, by simp, ?_, hf1.2, he1.2, rfl, hcv⟩
          · rw [hs1.1]
            have hdd := takeWhile_append_dw (p := isDig) r1
            rw [hds1] at hdd
            rw [← hdd, hf1.1, he1.1]
            try simp
          · intro c hc
            rw [← hds1] at hc
            exact mem_takeWhile_p c hc

theorem parse_number_length {s : List Char} {v : JsonValue} {r6 : List Char}
    (h : parse_number s = .ok v r6) : r6.length < s.length := by
  rcases parse_number_shape h with ⟨sg, ds1, fr, ex, x, hsplit, -, hne, -⟩
  rw [hsplit]
  simp only [List.length_append]
  cases ds1 with
  | nil => exact absurd rfl hne
  | cons d t => simp only [List.length_cons]; omega

theorem parse_number_append {s : List Char} {v : JsonValue} {r6 w : List Char}
    (hw : ∀ c ∈ w, rustIsWhitespace c = true) (h : parse_number s = .ok v r6) :
    parse_number (s ++ w) = .ok v (r6 ++ w) := by
  simp only [parse_number] at h ⊢
  rcases hss : scanSign s with ⟨sg, r1⟩
  rw [hss] at h
  simp only at h
  have hs : s ≠ [] := by
    rintro rfl
    simp only [scanSign, startsWithStr] at hss
    rw [if_neg (by simp)] at hss
    cases hss
    simp at h
  rw [scanSign_append w hs hss]
  simp only
  rw [(tw_dw_append_ws hw).1, (tw_dw_append_ws hw).2]
  cases hds1 : r1.takeWhile isDig with
  | nil => rw [hds1] at h; simp at h
  | cons d1 t1 =>
    rw [hds1] at h
    simp only at h
    cases hsf : scanFrac (r1.dropWhile isDig) with
    | error m => rw [hsf] at h; simp at h
    | ok pr =>
      obtain ⟨fr, r3⟩ := pr
      rw [hsf] at h
      simp only at h
      rw [scanFrac_append hw hsf]
      simp only
      cases hse : scanExp r3 with
      | error m => rw [hse] at h; simp at h
      | ok pr2 =>
        obtain ⟨ex, r6x⟩ := pr2
        rw [hse] at h
        simp only at h
        rw [scanExp_append hw hse]
        simp only
        cases hcv : rustParseF64 (sg ++ ((d1 :: t1) ++ (fr ++ ex))) with
        | none => rw [hcv] at h; simp at h
        | some x =>
          rw [hcv] at h
          simp only at h
          cases h
          rfl


/-! ### The array and object loops -/

theorem skipWs_len_eq {l t : List Char} {c : Char} (h : skipWs l = c :: t) :
    t.length + 1 ≤ l.length := by
  have h2 := skipWs_length_le l
  rw [h] at h2
  simpa using h2

theorem arrayLoop_length {pv : List Char → PResult}
    (hpv : ∀ {r : List Char} {v : JsonValue} {r2 : List Char},
      pv r = .ok v r2 → r2.length < r.length) :
    ∀ {k : Nat} {acc : List JsonValue} {rem : List Char} {v : JsonValue}
      {rem2 : List Char},
      arrayLoop pv k acc rem = .ok v rem2 → rem2.length < rem.length := by
  intro k
  induction k with
  | zero => intro acc rem v rem2 h; simp [arrayLoop] at h
  | succ n ih =>
    intro acc rem v rem2 h
    simp only [arrayLoop] at h
    cases hpvr : pv rem with
    | ok v1 rem1 =>
      rw [hpvr] at h
      simp only at h
      have h1 := hpv hpvr
      split at h
      · cases h
        rename_i rest heq
        have h2 := skipWs_len_eq heq
        omega
      · rename_i rest heq
        have h3 := ih h
        have h4 := skipWs_length_le rest
        have h2 := skipWs_len_eq heq
        omega
      · simp at h
      · simp at h
    | err e => rw [hpvr] at h; simp at h
    | fuel => rw [hpvr] at h; simp at h

theorem objectLoop_length {pv : List Char → PResult}
    (hpv : ∀ {r : List Char} {v : JsonValue} {r2 : List Char},
      pv r = .ok v r2 → r2.length < r.length) :
    ∀ {k : Nat} {acc : List (List Char × JsonValue)} {rem : List Char}
      {v : JsonValue} {rem2 : List Char},
      objectLoop pv k acc rem = .ok v rem2 → rem2.length < rem.length := by
  intro k
  induction k with
  | zero => intro acc rem v rem2 h; simp [objectLoop] at h
  | succ n ih =>
    intro acc rem v rem2 h
    simp only [objectLoop] at h
    cases hpvr : pv rem with
    | ok kv rem1 =>
      rw [hpvr] at h
      simp only at h
      have h1 := hpv hpvr
      cases kv with
      | string key =>
        simp only at h
        split at h
        · rename_i rest heq
          have h2 := skipWs_len_eq heq
          cases hpvr2 : pv rest with
          | ok v2 rem3 =>
            rw [hpvr2] at h
            simp only at h
            have h3 := hpv hpvr2
            split at h
            · cases h
              rename_i rest2 heq2
              have h4 := skipWs_len_eq heq2
              omega
            · rename_i rest2 heq2
              have h5 := ih h
              have h6 := skipWs_length_le rest2
              have h4 := skipWs_len_eq heq2
              omega
            · simp at h
            · simp at h
          | err e => rw [hpvr2] at h; simp at h
          | fuel => rw [hpvr2] at h; simp at h
        · simp at h
      | null => simp at h
      | boolean b => simp at h
      | number x => simp at h
      | array l => simp at h
      | object m => simp at h
    | err e => rw [hpvr] at h; simp at h
    | fuel => rw [hpvr] at h; simp at h

theorem arrayLoop_nil_not_ok {pv : List Char → PResult}
    (hnil : ∀ {v : JsonValue} {r2 : List Char}, pv [] ≠ .ok v r2)
    {k : Nat} {acc : List JsonValue} {v : JsonValue} {rem2 : List Char} :
    arrayLoop pv k acc [] ≠ .ok v rem2 := by
  cases k with
  | zero => simp [arrayLoop]
  | succ n =>
    simp only [arrayLoop]
    cases hpvr : pv [] with
    | ok v1 rem1 => exact absurd hpvr hnil
    | err e => simp
    | fuel => simp

theorem objectLoop_nil_not_ok {pv : List Char → PResult}
    (hnil : ∀ {v : JsonValue} {r2 : List Char}, pv [] ≠ .ok v r2)
    {k : Nat} {acc : List (List Char × JsonValue)} {v : JsonValue} {rem2 : List Char} :
    objectLoop pv k acc [] ≠ .ok v rem2 := by
  cases k with
  | zero => simp [objectLoop]
  | succ n =>
    simp only [objectLoop]
    cases hpvr : pv [] with
    | ok v1 rem1 => exact absurd hpvr hnil
    | err e => simp
    | fuel => simp

theorem arrayLoop_nofuel {pv : List Char → PResult} {K : Nat}
    (hpv : ∀ {r : List Char} {v : JsonValue} {r2 : List Char},
      pv r = .ok v r2 → r2.length < r.length)
    (hpvf : ∀ {r : List Char}, r.length < K → pv r ≠ .fuel) :
    ∀ {k : Nat} {acc : List JsonValue} {rem : List Char},
      k ≤ K → rem.length < k → arrayLoop pv k acc rem ≠ .fuel := by
  intro k
  induction k with
  | zero => intro acc rem hk hlen; omega
  | succ n ih =>
    intro acc rem hk hlen
    simp only [arrayLoop]
    cases hpvr : pv rem with
    | ok v1 rem1 =>
      have h1 := hpv hpvr
      try rw [hpvr]
      simp only
      split
      · simp
      · rename_i rest heq
        have h2 := skipWs_len_eq heq
        have h4 := skipWs_length_le rest
        exact ih (by omega) (by omega)
      · simp
      · simp
    | err e =>
      try rw [hpvr]
      simp
    | fuel => exact absurd hpvr (hpvf (by omega))

theorem objectLoop_nofuel {pv : List Char → PResult} {K : Nat}
    (hpv : ∀ {r : List Char} {v : JsonValue} {r2 : List Char},
      pv r = .ok v r2 → r2.length < r.length)
    (hpvf : ∀ {r : List Char}, r.length < K → pv r ≠ .fuel) :
    ∀ {k : Nat} {acc : List (List Char × JsonValue)} {rem : List Char},
      k ≤ K → rem.length < k → objectLoop pv k acc rem ≠ .fuel := by
  intro k
  induction k with
  | zero => intro acc rem hk hlen; omega
  | succ n ih =>
    intro acc rem hk hlen
    simp only [objectLoop]
    cases hpvr : pv rem with
    | ok kv rem1 =>
      have h1 := hpv hpvr
      try rw [hpvr]
      simp only
      cases kv with
      | string key =>
        simp only
        split
        · rename_i rest heq
          have h2 := skipWs_len_eq heq
          cases hpvr2 : pv rest with
          | ok v2 rem3 =>
            have h3 := hpv hpvr2
            try rw [hpvr2]
            simp only
            split
            · simp
            · rename_i rest2 heq2
              have h4 := skipWs_len_eq heq2
              have h6 := skipWs_length_le rest2
              exact ih (by omega) (by omega)
            · simp
            · simp
          | err e =>
            try rw [hpvr2]
            simp
          | fuel => exact absurd hpvr2 (hpvf (by omega))
        · simp
      | null => simp
      | boolean b => simp
      | number x => simp
      | array l => simp
      | object m => simp
    | err e =>
      try rw [hpvr]
      simp
    | fuel => exact absurd hpvr (hpvf (by omega))


theorem arrayLoop_mono {pv pvq : List Char → PResult}
    (hpv : ∀ {r : List Char} {v : JsonValue} {r2 : List Char},
      pv r = .ok v r2 → pvq r = .ok v r2) :
    ∀ {k kq : Nat} {acc : List JsonValue} {rem : List Char} {v : JsonValue}
      {rem2 : List Char},
      k ≤ kq → arrayLoop pv k acc rem = .ok v rem2 → arrayLoop pvq kq acc rem = .ok v rem2 := by
  intro k
  induction k with
  | zero => intro kq acc rem v rem2 hk h; simp [arrayLoop] at h
  | succ n ih =>
    intro kq acc rem v rem2 hk h
    obtain ⟨m, rfl⟩ : ∃ m, kq = m + 1 := ⟨kq - 1, by omega⟩
    have hnm : n ≤ m := by omega
    simp only [arrayLoop] at h ⊢
    cases hpvr : pv rem with
    | ok v1 rem1 =>
      rw [hpvr] at h
      simp only at h
      rw [hpv hpvr]
      simp only
      split at h
      · cases h
        rename_i rest heq
        try rw [heq]
        try simp only
        try rfl
      · rename_i rest heq
        try rw [heq]
        try simp only
        exact ih hnm h
      · simp at h
      · simp at h
    | err e => rw [hpvr] at h; simp at h
    | fuel => rw [hpvr] at h; simp at h

theorem objectLoop_mono {pv pvq : List Char → PResult}
    (hpv : ∀ {r : List Char} {v : JsonValue} {r2 : List Char},
      pv r = .ok v r2 → pvq r = .ok v r2) :
    ∀ {k kq : Nat} {acc : List (List Char × JsonValue)} {rem : List Char}
      {v : JsonValue} {rem2 : List Char},
      k ≤ kq → objectLoop pv k acc rem = .ok v rem2 → objectLoop pvq kq acc rem = .ok v rem2 := by
  intro k
  induction k with
  | zero => intro kq acc rem v rem2 hk h; simp [objectLoop] at h
  | succ n ih =>
    intro kq acc rem v rem2 hk h
    obtain ⟨m, rfl⟩ : ∃ m, kq = m + 1 := ⟨kq - 1, by omega⟩
    have hnm : n ≤ m := by omega
    simp only [objectLoop] at h ⊢
    cases hpvr : pv rem with
    | ok kv rem1 =>
      rw [hpvr] at h
      simp only at h
      rw [hpv hpvr]
      simp only
      cases kv with
      | string key =>
        simp only at h ⊢
        split at h
        · rename_i rest heq
          try rw [heq]
          try simp only
          cases hpvr2 : pv rest with
          | ok v2 rem3 =>
            rw [hpvr2] at h
            simp only at h
            rw [hpv hpvr2]
            simp only
            split at h
            · cases h
              rename_i rest2 heq2
              try rw [heq2]
              try simp only
              try rfl
            · rename_i rest2 heq2
              try rw [heq2]
              try simp only
              exact ih hnm h
            · simp at h
            · simp at h
          | err e => rw [hpvr2] at h; simp at h
          | fuel => rw [hpvr2] at h; simp at h
        · simp at h
      | null => simp at h
      | boolean b => simp at h
      | number x => simp at h
      | array l => simp at h
      | object m2 => simp at h
    | err e => rw [hpvr] at h; simp at h
    | fuel => rw [hpvr] at h; simp at h

theorem arrayLoop_append {pv : List Char → PResult} {w : List Char}
    (hw : ∀ c ∈ w, rustIsWhitespace c = true)
    (hpvapp : ∀ {r : List Char} {v : JsonValue} {r2 : List Char},
      pv r = .ok v r2 → pv (r ++ w) = .ok v (r2 ++ w))
    (hnil : ∀ {v : JsonValue} {r2 : List Char}, pv [] ≠ .ok v r2) :
    ∀ {k : Nat} {acc : List JsonValue} {rem : List Char} {v : JsonValue}
      {rem2 : List Char},
      arrayLoop pv k acc rem = .ok v rem2 → arrayLoop pv k acc (rem ++ w) = .ok v (rem2 ++ w) := by
  intro k
  induction k with
  | zero => intro acc rem v rem2 h; simp [arrayLoop] at h
  | succ n ih =>
    intro acc rem v rem2 h
    simp only [arrayLoop] at h ⊢
    cases hpvr : pv rem with
    | ok v1 rem1 =>
      rw [hpvr] at h
      simp only at h
      rw [hpvapp hpvr]
      simp only
      split at h
      · cases h
        rename_i rest heq
        rw [skipWs_append_of_cons w heq]
        simp only
      · rename_i rest heq
        rw [skipWs_append_of_cons w heq]
        simp only
        cases hsr : skipWs rest with
        | nil =>
          rw [hsr] at h
          exact absurd h (arrayLoop_nil_not_ok hnil)
        | cons c2 t2 =>
          rw [hsr] at h
          rw [skipWs_append_of_cons w hsr]
          exact ih h
      · simp at h
      · simp at h
    | err e => rw [hpvr] at h; simp at h
    | fuel => rw [hpvr] at h; simp at h

theorem objectLoop_append {pv : List Char → PResult} {w : List Char}
    (hw : ∀ c ∈ w, rustIsWhitespace c = true)
    (hpvapp : ∀ {r : List Char} {v : JsonValue} {r2 : List Char},
      pv r = .ok v r2 → pv (r ++ w) = .ok v (r2 ++ w))
    (hnil : ∀ {v : JsonValue} {r2 : List Char}, pv [] ≠ .ok v r2) :
    ∀ {k : Nat} {acc : List (List Char × JsonValue)} {rem : List Char}
      {v : JsonValue} {rem2 : List Char},
      objectLoop pv k acc rem = .ok v rem2 →
        objectLoop pv k acc (rem ++ w) = .ok v (rem2 ++ w) := by
  intro k
  induction k with
  | zero => intro acc rem v rem2 h; simp [objectLoop] at h
  | succ n ih =>
    intro acc rem v rem2 h
    simp only [objectLoop] at h ⊢
    cases hpvr : pv rem with
    | ok kv rem1 =>
      rw [hpvr] at h
      simp only at h
      rw [hpvapp hpvr]
      simp only
      cases kv with
      | string key =>
        simp only at h ⊢
        split at h
        · rename_i rest heq
          rw [skipWs_append_of_cons w heq]
          simp only
          cases hpvr2 : pv rest with
          | ok v2 rem3 =>
            rw [hpvr2] at h
            simp only at h
            rw [hpvapp hpvr2]
            simp only
            split at h
            · cases h
              rename_i rest2 heq2
              rw [skipWs_append_of_cons w heq2]
              simp only
            · rename_i rest2 heq2
              rw [skipWs_append_of_cons w heq2]
              simp only
              cases hsr : skipWs rest2 with
              | nil =>
                rw [hsr] at h
                exact absurd h (objectLoop_nil_not_ok hnil)
              | cons c2 t2 =>
                rw [hsr] at h
                rw [skipWs_append_of_cons w hsr]
                exact ih h
            · simp at h
            · simp at h
          | err e => rw [hpvr2] at h; simp at h
          | fuel => rw [hpvr2] at h; simp at h
        · simp at h
      | null => simp at h
      | boolean b => simp at h
      | number x => simp at h
      | array l => simp at h
      | object m2 => simp at h
    | err e => rw [hpvr] at h; simp at h
    | fuel => rw [hpvr] at h; simp at h


/-! ### The array and object parsers -/

theorem parse_array_length {pv : List Char → PResult}
    (hpv : ∀ {r : List Char} {v : JsonValue} {r2 : List Char},
      pv r = .ok v r2 → r2.length < r.length)
    {n : Nat} {rem : List Char} {v : JsonValue} {rem2 : List Char}
    (h : parse_array pv n rem = .ok v rem2) : rem2.length < rem.length := by
  simp only [parse_array] at h
  split at h
  · cases h
    rename_i rest heq
    have h2 := skipWs_len_eq heq
    have h3 : (rem.drop 1).length = rem.length - 1 := List.length_drop 1 rem
    omega
  · have h1 := arrayLoop_length hpv h
    have h2 := skipWs_length_le (rem.drop 1)
    have h3 : (rem.drop 1).length = rem.length - 1 := List.length_drop 1 rem
    cases rem with
    | nil =>
      simp only [List.drop_nil] at h
      exact absurd h (by
        intro hh
        have := arrayLoop_length hpv hh
        simp [skipWs] at this)
    | cons c t =>
      have h4 : (List.drop 1 (c :: t)).length = t.length := by simp
      have h5 : (c :: t).length = t.length + 1 := by simp
      omega

theorem parse_object_length {pv : List Char → PResult}
    (hpv : ∀ {r : List Char} {v : JsonValue} {r2 : List Char},
      pv r = .ok v r2 → r2.length < r.length)
    {n : Nat} {rem : List Char} {v : JsonValue} {rem2 : List Char}
    (h : parse_object pv n rem = .ok v rem2) : rem2.length < rem.length := by
  simp only [parse_object] at h
  split at h
  · cases h
    rename_i rest heq
    have h2 := skipWs_len_eq heq
    have h3 : (rem.drop 1).length = rem.length - 1 := List.length_drop 1 rem
    omega
  · have h1 := objectLoop_length hpv h
    have h2 := skipWs_length_le (rem.drop 1)
    have h3 : (rem.drop 1).length = rem.length - 1 := List.length_drop 1 rem
    cases rem with
    | nil =>
      simp only [List.drop_nil] at h
      exact absurd h (by
        intro hh
        have := objectLoop_length hpv hh
        simp [skipWs] at this)
    | cons c t =>
      have h4 : (List.drop 1 (c :: t)).length = t.length := by simp
      have h5 : (c :: t).length = t.length + 1 := by simp
      omega

theorem parse_array_nofuel {pv : List Char → PResult} {n : Nat}
    (hpv : ∀ {r : List Char} {v : JsonValue} {r2 : List Char},
      pv r = .ok v r2 → r2.length < r.length)
    (hpvf : ∀ {r : List Char}, r.length < n → pv r ≠ .fuel)
    {rem : List Char} (hne : rem ≠ []) (hlen : rem.length ≤ n) :
    parse_array pv n rem ≠ .fuel := by
  simp only [parse_array]
  split
  · simp
  · apply arrayLoop_nofuel hpv hpvf le_rfl
    have h2 := skipWs_length_le (rem.drop 1)
    have h3 : (rem.drop 1).length = rem.length - 1 := List.length_drop 1 rem
    cases rem with
    | nil => exact absurd rfl hne
    | cons c t =>
      have h4 : (List.drop 1 (c :: t)).length = t.length := by simp
      have h5 : (c :: t).length = t.length + 1 := by simp
      omega

theorem parse_object_nofuel {pv : List Char → PResult} {n : Nat}
    (hpv : ∀ {r : List Char} {v : JsonValue} {r2 : List Char},
      pv r = .ok v r2 → r2.length < r.length)
    (hpvf : ∀ {r : List Char}, r.length < n → pv r ≠ .fuel)
    {rem : List Char} (hne : rem ≠ []) (hlen : rem.length ≤ n) :
    parse_object pv n rem ≠ .fuel := by
  simp only [parse_object]
  split
  · simp
  · apply objectLoop_nofuel hpv hpvf le_rfl
    have h2 := skipWs_length_le (rem.drop 1)
    have h3 : (rem.drop 1).length = rem.length - 1 := List.length_drop 1 rem
    cases rem with
    | nil => exact absurd rfl hne
    | cons c t =>
      have h4 : (List.drop 1 (c :: t)).length = t.length := by simp
      have h5 : (c :: t).length = t.length + 1 := by simp
      omega

theorem parse_array_mono {pv pvq : List Char → PResult}
    (hpv : ∀ {r : List Char} {v : JsonValue} {r2 : List Char},
      pv r = .ok v r2 → pvq r = .ok v r2)
    {n nq : Nat} (hn : n ≤ nq) {rem : List Char} {v : JsonValue} {rem2 : List Char}
    (h : parse_array pv n rem = .ok v rem2) : parse_array pvq nq rem = .ok v rem2 := by
  simp only [parse_array] at h ⊢
  split at h
  · rename_i rest heq
    try rw [heq]
    try simp only
    exact h
  · exact arrayLoop_mono hpv hn h

theorem parse_object_mono {pv pvq : List Char → PResult}
    (hpv : ∀ {r : List Char} {v : JsonValue} {r2 : List Char},
      pv r = .ok v r2 → pvq r = .ok v r2)
    {n nq : Nat} (hn : n ≤ nq) {rem : List Char} {v : JsonValue} {rem2 : List Char}
    (h : parse_object pv n rem = .ok v rem2) : parse_object pvq nq rem = .ok v rem2 := by
  simp only [parse_object] at h ⊢
  split at h
  · rename_i rest heq
    try rw [heq]
    try simp only
    exact h
  · exact objectLoop_mono hpv hn h

theorem parse_array_append {pv : List Char → PResult} {w : List Char}
    (hw : ∀ c ∈ w, rustIsWhitespace c = true)
    (hpvapp : ∀ {r : List Char} {v : JsonValue} {r2 : List Char},
      pv r = .ok v r2 → pv (r ++ w) = .ok v (r2 ++ w))
    (hnil : ∀ {v : JsonValue} {r2 : List Char}, pv [] ≠ .ok v r2)
    {n : Nat} {rem : List Char} {v : JsonValue} {rem2 : List Char} (hne : rem ≠ [])
    (h : parse_array pv n rem = .ok v rem2) :
    parse_array pv n (rem ++ w) = .ok v (rem2 ++ w) := by
  obtain ⟨c, t, rfl⟩ : ∃ c t, rem = c :: t := by
    cases rem with
    | nil => exact absurd rfl hne
    | cons c t => exact ⟨c, t, rfl⟩
  simp only [parse_array, List.cons_append, List.drop_one, List.tail_cons] at h ⊢
  split at h
  · cases h
    rename_i rest heq
    rw [skipWs_append_of_cons w heq]
    simp only
  · rename_i hne2
    cases hsr : skipWs t with
    | nil =>
      rw [hsr] at h
      exact absurd h (arrayLoop_nil_not_ok hnil)
    | cons c2 t2 =>
      rw [hsr] at h
      rw [skipWs_append_of_cons w hsr]
      have hc2 : c2 ≠ ']' := by
        intro hc
        subst hc
        exact hne2 t2 hsr
      split
      · rename_i heq2
        cases heq2
        exact absurd rfl hc2
      · exact arrayLoop_append hw hpvapp hnil h

theorem parse_object_append {pv : List Char → PResult} {w : List Char}
    (hw : ∀ c ∈ w, rustIsWhitespace c = true)
    (hpvapp : ∀ {r : List Char} {v : JsonValue} {r2 : List Char},
      pv r = .ok v r2 → pv (r ++ w) = .ok v (r2 ++ w))
    (hnil : ∀ {v : JsonValue} {r2 : List Char}, pv [] ≠ .ok v r2)
    {n : Nat} {rem : List Char} {v : JsonValue} {rem2 : List Char} (hne : rem ≠ [])
    (h : parse_object pv n rem = .ok v rem2) :
    parse_object pv n (rem ++ w) = .ok v (rem2 ++ w) := by
  obtain ⟨c, t, rfl⟩ : ∃ c t, rem = c :: t := by
    cases rem with
    | nil => exact absurd rfl hne
    | cons c t => exact ⟨c, t, rfl⟩
  simp only [parse_object, List.cons_append, List.drop_one, List.tail_cons] at h ⊢
  split at h
  · cases h
    rename_i rest heq
    rw [skipWs_append_of_cons w heq]
    simp only
  · rename_i hne2
    cases hsr : skipWs t with
    | nil =>
      rw [hsr] at h
      exact absurd h (objectLoop_nil_not_ok hnil)
    | cons c2 t2 =>
      rw [hsr] at h
      rw [skipWs_append_of_cons w hsr]
      have hc2 : c2 ≠ '}' := by
        intro hc
        subst hc
        exact hne2 t2 hsr
      split
      · rename_i heq2
        cases heq2
        exact absurd rfl hc2
      · exact objectLoop_append hw hpvapp hnil h


/-! ### The value dispatcher -/

theorem parse_null_no_fuel {rem : List Char} : parse_null rem ≠ .fuel := by
  simp only [parse_null]
  split <;> simp

theorem parse_boolean_no_fuel {rem : List Char} : parse_boolean rem ≠ .fuel := by
  simp only [parse_boolean]
  split
  · simp
  · split <;> simp

theorem parse_string_no_fuel {rem : List Char} : parse_string rem ≠ .fuel := by
  simp only [parse_string]
  exact psLoop_nofuel le_rfl

theorem parse_number_no_fuel {rem : List Char} : parse_number rem ≠ .fuel := by
  simp only [parse_number]
  rcases hss : scanSign rem with ⟨sg, r1⟩
  try rw [hss]
  simp only
  cases htw : r1.takeWhile isDig with
  | nil => simp
  | cons d t =>
    try rw [htw]
    simp only
    cases hsf : scanFrac (r1.dropWhile isDig) with
    | error m =>
      try rw [hsf]
      simp
    | ok pr =>
      obtain ⟨fr, r3⟩ := pr
      try rw [hsf]
      simp only
      cases hse : scanExp r3 with
      | error m =>
        try rw [hse]
        simp
      | ok pr2 =>
        obtain ⟨ex, r6⟩ := pr2
        try rw [hse]
        simp only
        cases hcv : rustParseF64 (sg ++ ((d :: t) ++ (fr ++ ex))) with
        | none =>
          try rw [hcv]
          simp
        | some x =>
          try rw [hcv]
          simp

theorem parse_value_nil : ∀ {n : Nat} {v : JsonValue} {rem2 : List Char},
    parse_value n [] ≠ .ok v rem2 := by
  intro n v rem2
  cases n with
  | zero => simp [parse_value]
  | succ m => simp [parse_value, skipWs]

theorem parse_value_length : ∀ {n : Nat} {rem : List Char} {v : JsonValue}
    {rem2 : List Char}, parse_value n rem = .ok v rem2 → rem2.length < rem.length := by
  intro n
  induction n with
  | zero => intro rem v rem2 h; simp [parse_value] at h
  | succ n ih =>
    intro rem v rem2 h
    simp only [parse_value] at h
    cases hsw : skipWs rem with
    | nil => rw [hsw] at h; simp at h
    | cons c rest =>
      try rw [hsw] at h
      simp only at h
      have hlsw := skipWs_len_eq hsw
      have hcc : (c :: rest).length = rest.length + 1 := by simp
      by_cases h1 : c = 'n'
      · rw [if_pos h1] at h
        have h2 := parse_null_length h
        omega
      · rw [if_neg h1] at h
        by_cases h2 : c = 't' ∨ c = 'f'
        · rw [if_pos h2] at h
          have h3 := parse_boolean_length h
          omega
        · rw [if_neg h2] at h
          by_cases h3 : c = '"'
          · rw [if_pos h3] at h
            have h4 := parse_string_length h
            omega
          · rw [if_neg h3] at h
            by_cases h4 : c = '['
            · rw [if_pos h4] at h
              have h5 := parse_array_length (fun hh => ih hh) h
              omega
            · rw [if_neg h4] at h
              by_cases h5 : c = '{'
              · rw [if_pos h5] at h
                have h6 := parse_object_length (fun hh => ih hh) h
                omega
              · rw [if_neg h5] at h
                by_cases h6 : isDig c = true ∨ c = '-'
                · rw [if_pos h6] at h
                  have h7 := parse_number_length h
                  omega
                · rw [if_neg h6] at h
                  simp at h

theorem parse_value_nofuel : ∀ {n : Nat} {rem : List Char},
    rem.length < n → parse_value n rem ≠ .fuel := by
  intro n
  induction n with
  | zero => intro rem h; omega
  | succ n ih =>
    intro rem hlen
    simp only [parse_value]
    cases hsw : skipWs rem with
    | nil => simp
    | cons c rest =>
      have hlsw := skipWs_len_eq hsw
      have hcc : (c :: rest).length ≤ n := by
        simp only [List.length_cons]
        omega
      simp only
      by_cases h1 : c = 'n'
      · rw [if_pos h1]; exact parse_null_no_fuel
      · rw [if_neg h1]
        by_cases h2 : c = 't' ∨ c = 'f'
        · rw [if_pos h2]; exact parse_boolean_no_fuel
        · rw [if_neg h2]
          by_cases h3 : c = '"'
          · rw [if_pos h3]; exact parse_string_no_fuel
          · rw [if_neg h3]
            by_cases h4 : c = '['
            · rw [if_pos h4]
              exact parse_array_nofuel (fun hh => parse_value_length hh)
                (fun hh => ih hh) (by simp) hcc
            · rw [if_neg h4]
              by_cases h5 : c = '{'
              · rw [if_pos h5]
                exact parse_object_nofuel (fun hh => parse_value_length hh)
                  (fun hh => ih hh) (by simp) hcc
              · rw [if_neg h5]
                by_cases h6 : isDig c = true ∨ c = '-'
                · rw [if_pos h6]; exact parse_number_no_fuel
                · rw [if_neg h6]; simp

theorem parse_value_mono : ∀ {n m : Nat} {rem : List Char} {v : JsonValue}
    {rem2 : List Char},
    n ≤ m → parse_value n rem = .ok v rem2 → parse_value m rem = .ok v rem2 := by
  intro n
  induction n with
  | zero => intro m rem v rem2 hm h; simp [parse_value] at h
  | succ n ih =>
    intro m rem v rem2 hm h
    obtain ⟨k, rfl⟩ : ∃ k, m = k + 1 := ⟨m - 1, by omega⟩
    have hnk : n ≤ k := by omega
    simp only [parse_value] at h ⊢
    cases hsw : skipWs rem with
    | nil => rw [hsw] at h; simp at h
    | cons c rest =>
      try rw [hsw] at h
      try rw [hsw]
      simp only at h ⊢
      by_cases h1 : c = 'n'
      · rw [if_pos h1] at h ⊢; exact h
      · rw [if_neg h1] at h ⊢
        by_cases h2 : c = 't' ∨ c = 'f'
        · rw [if_pos h2] at h ⊢; exact h
        · rw [if_neg h2] at h ⊢
          by_cases h3 : c = '"'
          · rw [if_pos h3] at h ⊢; exact h
          · rw [if_neg h3] at h ⊢
            by_cases h4 : c = '['
            · rw [if_pos h4] at h ⊢
              exact parse_array_mono (fun hh => ih hnk hh) hnk h
            · rw [if_neg h4] at h ⊢
              by_cases h5 : c = '{'
              · rw [if_pos h5] at h ⊢
                exact parse_object_mono (fun hh => ih hnk hh) hnk h
              · rw [if_neg h5] at h ⊢
                by_cases h6 : isDig c = true ∨ c = '-'
                · rw [if_pos h6] at h ⊢; exact h
                · rw [if_neg h6] at h ⊢; exact h

theorem parse_value_append {w : List Char} (hw : ∀ c ∈ w, rustIsWhitespace c = true) :
    ∀ {n : Nat} {rem : List Char} {v : JsonValue} {rem2 : List Char},
    parse_value n rem = .ok v rem2 → parse_value n (rem ++ w) = .ok v (rem2 ++ w) := by
  intro n
  induction n with
  | zero => intro rem v rem2 h; simp [parse_value] at h
  | succ n ih =>
    intro rem v rem2 h
    simp only [parse_value] at h ⊢
    cases hsw : skipWs rem with
    | nil => rw [hsw] at h; simp at h
    | cons c rest =>
      try rw [hsw] at h
      simp only at h
      rw [skipWs_append_of_cons w hsw]
      simp only
      by_cases h1 : c = 'n'
      · rw [if_pos h1] at h ⊢
        simpa using parse_null_append w h
      · rw [if_neg h1] at h ⊢
        by_cases h2 : c = 't' ∨ c = 'f'
        · rw [if_pos h2] at h ⊢
          simpa using parse_boolean_append w h
        · rw [if_neg h2] at h ⊢
          by_cases h3 : c = '"'
          · rw [if_pos h3] at h ⊢
            simpa using parse_string_append w h
          · rw [if_neg h3] at h ⊢
            by_cases h4 : c = '['
            · rw [if_pos h4] at h ⊢
              simpa using parse_array_append hw (fun hh => ih hh) parse_value_nil
                (by simp) h
            · rw [if_neg h4] at h ⊢
              by_cases h5 : c = '{'
              · rw [if_pos h5] at h ⊢
                simpa using parse_object_append hw (fun hh => ih hh) parse_value_nil
                  (by simp) h
              · rw [if_neg h5] at h ⊢
                by_cases h6 : isDig c = true ∨ c = '-'
                · rw [if_pos h6] at h ⊢
                  simpa using parse_number_append hw h
                · rw [if_neg h6] at h ⊢
                  simp at h


/-! ### The top-level parse -/

theorem parse_not_fuel (s : List Char) : parse s ≠ .fuel := by
  simp only [parse]
  cases hpv : parse_value (s.length + 1) (skipWs s) with
  | ok v rem1 =>
    try rw [hpv]
    simp only
    split <;> simp
  | err e =>
    try rw [hpv]
    simp
  | fuel =>
    exfalso
    have hlen : (skipWs s).length < s.length + 1 := by
      have := skipWs_length_le s
      omega
    exact parse_value_nofuel hlen hpv

theorem parse_ok_iff {s : List Char} {v : JsonValue} :
    parse s = .ok v ↔ ∃ rem1, parse_value (s.length + 1) (skipWs s) = .ok v rem1 ∧
      ∀ c ∈ rem1, rustIsWhitespace c = true := by
  constructor
  · intro h
    simp only [parse] at h
    cases hpv : parse_value (s.length + 1) (skipWs s) with
    | ok v1 rem1 =>
      try rw [hpv] at h
      simp only at h
      split at h
      · rename_i hnil
        cases h
        exact ⟨rem1, rfl, skipWs_eq_nil_iff.mp hnil⟩
      · simp at h
    | err e =>
      try rw [hpv] at h
      simp at h
    | fuel =>
      try rw [hpv] at h
      simp at h
  · rintro ⟨rem1, hpv, hws⟩
    simp only [parse]
    rw [hpv]
    simp only
    rw [if_pos (skipWs_eq_nil_iff.mpr hws)]

theorem parse_trailing_err {s : List Char} {v : JsonValue} {rem1 : List Char}
    (hpv : parse_value (s.length + 1) (skipWs s) = .ok v rem1)
    (hbad : ¬∀ c ∈ rem1, rustIsWhitespace c = true) :
    parse s = .err ("Extra characters after JSON value") := by
  simp only [parse]
  rw [hpv]
  simp only
  rw [if_neg (fun hnil => hbad (skipWs_eq_nil_iff.mp hnil))]

theorem parse_total (s : List Char) :
    (∃ v, parse s = .ok v) ∨ (∃ e, parse s = .err e) := by
  cases hp : parse s with
  | ok v => exact Or.inl ⟨v, rfl⟩
  | err e => exact Or.inr ⟨e, rfl⟩
  | fuel => exact absurd hp (parse_not_fuel s)

theorem parse_ws_frame {w1 w2 d : List Char} {v : JsonValue}
    (hw1 : ∀ c ∈ w1, rustIsWhitespace c = true)
    (hw2 : ∀ c ∈ w2, rustIsWhitespace c = true)
    (h : parse d = .ok v) : parse (w1 ++ d ++ w2) = .ok v := by
  rcases parse_ok_iff.mp h with ⟨rem1, hpv, hws⟩
  cases hsd : skipWs d with
  | nil =>
    rw [hsd] at hpv
    exact absurd hpv parse_value_nil
  | cons c rest =>
    rw [hsd] at hpv
    have hext : parse_value (d.length + 1) ((c :: rest) ++ w2) = .ok v (rem1 ++ w2) :=
      parse_value_append hw2 hpv
    apply parse_ok_iff.mpr
    refine ⟨rem1 ++ w2, ?_, ?_⟩
    · have hs1 : skipWs (w1 ++ d ++ w2) = (c :: rest) ++ w2 := by
        rw [List.append_assoc, skipWs_ws_append (d ++ w2) hw1]
        rw [skipWs_append_of_cons w2 hsd]
        rfl
      rw [hs1]
      apply parse_value_mono _ hext
      simp only [List.length_append]
      omega
    · intro c2 hc2
      rcases List.mem_append.mp hc2 with hc2 | hc2
      · exact hws c2 hc2
      · exact hw2 c2 hc2

/-! ### The object map -/

theorem lookup_map_replace (k : List Char) (v : JsonValue) :
    ∀ m : List (List Char × JsonValue), m.any (fun p => p.1 == k) = true →
    List.lookup k (m.map (fun p => if p.1 == k then (k, v) else p)) = some v := by
  intro m
  induction m with
  | nil => intro hany; simp at hany
  | cons p t iht =>
    intro hany
    simp only [List.map_cons]
    by_cases hp : (p.1 == k) = true
    · rw [if_pos hp]
      simp [List.lookup]
    · rw [if_neg hp]
      have hk : (k == p.1) = false := by
        simp only [beq_eq_false_iff_ne, ne_eq]
        intro hkk
        rw [beq_iff_eq] at hp
        exact hp (hkk ▸ rfl)
      rcases p with ⟨pk, pv2⟩
      simp only at hk
      simp only [List.lookup, hk]
      apply iht
      simp only [List.any_cons, Bool.or_eq_true] at hany
      rcases hany with hany | hany
      · exact absurd hany hp
      · exact hany

theorem lookup_append_new (k : List Char) (v : JsonValue) :
    ∀ m : List (List Char × JsonValue), m.any (fun p => p.1 == k) = false →
    List.lookup k (m ++ [(k, v)]) = some v := by
  intro m
  induction m with
  | nil => intro hany; simp [List.lookup]
  | cons p t iht =>
    intro hany
    simp only [List.any_cons, Bool.or_eq_false_iff] at hany
    have hk : (k == p.1) = false := by
      simp only [beq_eq_false_iff_ne, ne_eq]
      intro hkk
      have hp := hany.1
      simp only [beq_eq_false_iff_ne, ne_eq] at hp
      exact hp (hkk ▸ rfl)
    rcases p with ⟨pk, pv2⟩
    simp only at hk
    simp only [List.cons_append, List.lookup, hk]
    exact iht hany.2

theorem lookup_insertKV (m : List (List Char × JsonValue)) (k : List Char)
    (v : JsonValue) : List.lookup k (insertKV m k v) = some v := by
  simp only [insertKV]
  split
  · rename_i hany
    exact lookup_map_replace k v m hany
  · rename_i hany
    exact lookup_append_new k v m (Bool.eq_false_iff.mpr hany)

theorem insertKV_forall {P : JsonValue → Prop} {m : List (List Char × JsonValue)}
    {k : List Char} {v : JsonValue} (hm : ∀ kv ∈ m, P kv.2) (hv : P v) :
    ∀ kv ∈ insertKV m k v, P kv.2 := by
  intro kv hkv
  simp only [insertKV] at hkv
  split at hkv
  · rcases List.mem_map.mp hkv with ⟨p, hp, heq⟩
    by_cases hpk : (p.1 == k) = true
    · rw [if_pos hpk] at heq
      rw [← heq]
      exact hv
    · rw [if_neg hpk] at heq
      rw [← heq]
      exact hm p hp
  · rcases List.mem_append.mp hkv with hkv | hkv
    · exact hm kv hkv
    · simp only [List.mem_singleton] at hkv
      cases hkv
      exact hv


/-! ### NumOk: every number an ok parse produces is finite or infinite, never NaN -/

theorem psLoop_ok_string {f : Nat} {acc rem : List Char} {v : JsonValue} {rem2 : List Char}
    (h : psLoop f acc rem = .ok v rem2) : ∃ cs, v = .string cs := by
  induction f generalizing acc rem with
  | zero =>
    cases rem with
    | nil => simp [psLoop] at h
    | cons c rest => simp [psLoop] at h
  | succ n ih =>
    cases rem with
    | nil => simp [psLoop] at h
    | cons c rest =>
      simp only [psLoop] at h
      by_cases hq : c = '"'
      · rw [if_pos hq] at h
        cases h
        exact ⟨acc, rfl⟩
      · rw [if_neg hq] at h
        by_cases hbk : c = '\\'
        · rw [if_pos hbk] at h
          cases rest with
          | nil => simp at h
          | cons e rest2 =>
            simp only at h
            by_cases h1 : e = '"'
            · rw [if_pos h1] at h
              exact ih h
            · rw [if_neg h1] at h
              by_cases h2 : e = '\\'
              · rw [if_pos h2] at h
                exact ih h
              · rw [if_neg h2] at h
                by_cases h3 : e = '/'
                · rw [if_pos h3] at h
                  exact ih h
                · rw [if_neg h3] at h
                  by_cases h4 : e = 'b'
                  · rw [if_pos h4] at h
                    exact ih h
                  · rw [if_neg h4] at h
                    by_cases h5 : e = 'f'
                    · rw [if_pos h5] at h
                      exact ih h
                    · rw [if_neg h5] at h
                      by_cases h6 : e = 'n'
                      · rw [if_pos h6] at h
                        exact ih h
                      · rw [if_neg h6] at h
                        by_cases h7 : e = 'r'
                        · rw [if_pos h7] at h
                          exact ih h
                        · rw [if_neg h7] at h
                          by_cases h8 : e = 't'
                          · rw [if_pos h8] at h
                            exact ih h
                          · rw [if_neg h8] at h
                            by_cases h9 : e = 'u'
                            · rw [if_pos h9] at h
                              cases hhex : readHexLoop 4 0 rest2 with
                              | ok pr =>
                                obtain ⟨code, rest3⟩ := pr
                                try rw [hhex] at h
                                try simp only at h
                                cases hch : charFromU32 code with
                                | some ch =>
                                  try rw [hch] at h
                                  try simp only at h
                                  exact ih h
                                | none =>
                                  try rw [hch] at h
                                  simp at h
                              | error msg =>
                                try rw [hhex] at h
                                simp at h
                            · rw [if_neg h9] at h
                              simp at h
        · rw [if_neg hbk] at h
          exact ih h

theorem parse_null_NumOk {rem : List Char} {v : JsonValue} {rem2 : List Char}
    (h : parse_null rem = .ok v rem2) : NumOk v := by
  simp only [parse_null] at h
  split at h
  · cases h
    exact NumOk.null
  · simp at h

theorem parse_boolean_NumOk {rem : List Char} {v : JsonValue} {rem2 : List Char}
    (h : parse_boolean rem = .ok v rem2) : NumOk v := by
  simp only [parse_boolean] at h
  split at h
  · cases h
    exact NumOk.boolean true
  · split at h
    · cases h
      exact NumOk.boolean false
    · simp at h

theorem parse_string_NumOk {rem : List Char} {v : JsonValue} {rem2 : List Char}
    (h : parse_string rem = .ok v rem2) : NumOk v := by
  rcases psLoop_ok_string h with ⟨cs, rfl⟩
  exact NumOk.string cs

theorem parse_number_NumOk {s : List Char} {v : JsonValue} {r6 : List Char}
    (h : parse_number s = .ok v r6) : NumOk v := by
  rcases parse_number_shape h with ⟨sg, ds1, fr, ex, x, -, -, -, -, -, -, rfl, hcv⟩
  exact NumOk.number x (rustParseF64_not_nan hcv)

theorem arrayLoop_NumOk {pv : List Char → PResult}
    (hpv : ∀ {r : List Char} {w : JsonValue} {r2 : List Char},
      pv r = .ok w r2 → NumOk w) :
    ∀ {k : Nat} {acc : List JsonValue} {rem : List Char} {v : JsonValue}
      {rem2 : List Char},
      (∀ x ∈ acc, NumOk x) → arrayLoop pv k acc rem = .ok v rem2 → NumOk v := by
  intro k
  induction k with
  | zero => intro acc rem v rem2 hacc h; simp [arrayLoop] at h
  | succ n ih =>
    intro acc rem v rem2 hacc h
    simp only [arrayLoop] at h
    cases hpvr : pv rem with
    | ok v1 rem1 =>
      rw [hpvr] at h
      simp only at h
      have h1 := hpv hpvr
      split at h
      · cases h
        apply NumOk.array
        intro x hx
        rcases List.mem_append.mp hx with hx | hx
        · exact hacc x hx
        · simp only [List.mem_singleton] at hx
          cases hx
          exact h1
      · apply ih _ h
        intro x hx
        rcases List.mem_append.mp hx with hx | hx
        · exact hacc x hx
        · simp only [List.mem_singleton] at hx
          cases hx
          exact h1
      · simp at h
      · simp at h
    | err e => rw [hpvr] at h; simp at h
    | fuel => rw [hpvr] at h; simp at h

theorem objectLoop_NumOk {pv : List Char → PResult}
    (hpv : ∀ {r : List Char} {w : JsonValue} {r2 : List Char},
      pv r = .ok w r2 → NumOk w) :
    ∀ {k : Nat} {acc : List (List Char × JsonValue)} {rem : List Char}
      {v : JsonValue} {rem2 : List Char},
      (∀ kv ∈ acc, NumOk kv.2) → objectLoop pv k acc rem = .ok v rem2 → NumOk v := by
  intro k
  induction k with
  | zero => intro acc rem v rem2 hacc h; simp [objectLoop] at h
  | succ n ih =>
    intro acc rem v rem2 hacc h
    simp only [objectLoop] at h
    cases hpvr : pv rem with
    | ok kv rem1 =>
      rw [hpvr] at h
      simp only at h
      cases kv with
      | string key =>
        simp only at h
        split at h
        · rename_i rest heq
          cases hpvr2 : pv rest with
          | ok v2 rem3 =>
            rw [hpvr2] at h
            simp only at h
            have h3 := hpv hpvr2
            split at h
            · cases h
              apply NumOk.object
              exact insertKV_forall hacc h3
            · apply ih _ h
              exact insertKV_forall hacc h3
            · simp at h
            · simp at h
          | err e => rw [hpvr2] at h; simp at h
          | fuel => rw [hpvr2] at h; simp at h
        · simp at h
      | null => simp at h
      | boolean b => simp at h
      | number x => simp at h
      | array l => simp at h
      | object m => simp at h
    | err e => rw [hpvr] at h; simp at h
    | fuel => rw [hpvr] at h; simp at h

theorem parse_array_NumOk {pv : List Char → PResult}
    (hpv : ∀ {r : List Char} {w : JsonValue} {r2 : List Char},
      pv r = .ok w r2 → NumOk w)
    {n : Nat} {rem : List Char} {v : JsonValue} {rem2 : List Char}
    (h : parse_array pv n rem = .ok v rem2) : NumOk v := by
  simp only [parse_array] at h
  split at h
  · cases h
    exact NumOk.array [] (by simp)
  · exact arrayLoop_NumOk hpv (by simp) h

theorem parse_object_NumOk {pv : List Char → PResult}
    (hpv : ∀ {r : List Char} {w : JsonValue} {r2 : List Char},
      pv r = .ok w r2 → NumOk w)
    {n : Nat} {rem : List Char} {v : JsonValue} {rem2 : List Char}
    (h : parse_object pv n rem = .ok v rem2) : NumOk v := by
  simp only [parse_object] at h
  split at h
  · cases h
    exact NumOk.object [] (by simp)
  · exact objectLoop_NumOk hpv (by simp) h

theorem parse_value_NumOk : ∀ {n : Nat} {rem : List Char} {v : JsonValue}
    {rem2 : List Char}, parse_value n rem = .ok v rem2 → NumOk v := by
  intro n
  induction n with
  | zero => intro rem v rem2 h; simp [parse_value] at h
  | succ n ih =>
    intro rem v rem2 h
    simp only [parse_value] at h
    cases hsw : skipWs rem with
    | nil => rw [hsw] at h; simp at h
    | cons c rest =>
      try rw [hsw] at h
      simp only at h
      by_cases h1 : c = 'n'
      · rw [if_pos h1] at h; exact parse_null_NumOk h
      · rw [if_neg h1] at h
        by_cases h2 : c = 't' ∨ c = 'f'
        · rw [if_pos h2] at h; exact parse_boolean_NumOk h
        · rw [if_neg h2] at h
          by_cases h3 : c = '"'
          · rw [if_pos h3] at h; exact parse_string_NumOk h
          · rw [if_neg h3] at h
            by_cases h4 : c = '['
            · rw [if_pos h4] at h
              exact parse_array_NumOk (fun hh => ih hh) h
            · rw [if_neg h4] at h
              by_cases h5 : c = '{'
              · rw [if_pos h5] at h
                exact parse_object_NumOk (fun hh => ih hh) h
              · rw [if_neg h5] at h
                by_cases h6 : isDig c = true ∨ c = '-'
                · rw [if_pos h6] at h; exact parse_number_NumOk h
                · rw [if_neg h6] at h; simp at h

theorem parse_NumOk {s : List Char} {v : JsonValue} (h : parse s = .ok v) :
    NumOk v := by
  rcases parse_ok_iff.mp h with ⟨rem1, hpv, -⟩
  exact parse_value_NumOk hpv


/-! ### The claimed number grammar (C4) -/

theorem isDig_ne {d c : Char} (h : isDig d = true)
    (hc : c.toNat < 48 ∨ 57 < c.toNat) : d ≠ c := by
  intro he
  subst he
  simp only [isDig, decide_eq_true_eq] at h
  omega

theorem sws_single_false {x d : Char} {t : List Char} (h : d ≠ x) :
    startsWithStr ([x]) (d :: t) = false := by
  have hx : (x == d) = false := by
    simp only [beq_eq_false_iff_ne, ne_eq]
    intro he
    exact h he.symm
  simp [startsWithStr, hx]

theorem stop_tw_dw {w : List Char}
    (hstop : w = [] ∨ ∃ c t, w = c :: t ∧ isDig c = false) :
    w.takeWhile isDig = [] ∧ w.dropWhile isDig = w := by
  rcases hstop with rfl | ⟨c, t, rfl, hc⟩
  · simp
  · simp [List.takeWhile_cons, List.dropWhile_cons, hc]

theorem tw_all_stop {l w : List Char} (hl : ∀ c ∈ l, isDig c = true)
    (hstop : w = [] ∨ ∃ c t, w = c :: t ∧ isDig c = false) :
    (l ++ w).takeWhile isDig = l ∧ (l ++ w).dropWhile isDig = w := by
  have h1 := takeWhile_append_all w hl
  have h2 := stop_tw_dw hstop
  exact ⟨by rw [h1.1, h2.1, List.append_nil], by rw [h1.2, h2.2]⟩

theorem specDigits1_all_stop {l w : List Char} (hne : l ≠ [])
    (hl : ∀ c ∈ l, isDig c = true)
    (hstop : w = [] ∨ ∃ c t, w = c :: t ∧ isDig c = false) :
    specDigits1 (l ++ w) = some w := by
  rcases tw_all_stop hl hstop with ⟨h1, h2⟩
  cases l with
  | nil => exact absurd rfl hne
  | cons d lt =>
    simp only [specDigits1, h1, h2]

theorem specNumberGrammar_of_parts {sg ds1 fr ex : List Char}
    (hsg : sg = [] ∨ sg = ['-'])
    (hne : ds1 ≠ []) (hds1 : ∀ c ∈ ds1, isDig c = true)
    (hfr : fr = [] ∨ ∃ ds2, fr = '.' :: ds2 ∧ ds2 ≠ [] ∧ ∀ c ∈ ds2, isDig c = true)
    (hex : ex = [] ∨ ∃ e sg2 ds3, ex = e :: (sg2 ++ ds3) ∧ (e = 'e' ∨ e = 'E') ∧
      (sg2 = [] ∨ sg2 = ['+'] ∨ sg2 = ['-']) ∧ ds3 ≠ [] ∧ ∀ c ∈ ds3, isDig c = true) :
    specNumberGrammar (sg ++ (ds1 ++ (fr ++ ex))) = true := by
  obtain ⟨d, ds1t, rfl⟩ : ∃ d t, ds1 = d :: t := by
    cases ds1 with
    | nil => exact absurd rfl hne
    | cons d t => exact ⟨d, t, rfl⟩
  have hd : isDig d = true := hds1 d (by simp)
  -- what follows the integer digits never starts with a digit
  have hstopfe : fr ++ ex = [] ∨ ∃ c t, fr ++ ex = c :: t ∧ isDig c = false := by
    rcases hfr with rfl | ⟨ds2, rfl, hne2, hds2⟩
    · rcases hex with rfl | ⟨e, sg2, ds3, rfl, he, h1, h2, h3⟩
      · left; rfl
      · right
        refine ⟨e, sg2 ++ ds3, by simp, ?_⟩
        rcases he with rfl | rfl <;> decide
    · right
      exact ⟨'.', ds2 ++ ex, by simp, by decide⟩
  have hD1 : specDigits1 ((d :: ds1t) ++ (fr ++ ex)) = some (fr ++ ex) :=
    specDigits1_all_stop hne hds1 hstopfe
  -- the exponent part never starts with a digit either
  have hstopex : ex = [] ∨ ∃ c t, ex = c :: t ∧ isDig c = false := by
    rcases hex with rfl | ⟨e, sg2, ds3, rfl, he, h1, h2, h3⟩
    · left; rfl
    · right
      refine ⟨e, sg2 ++ ds3, rfl, ?_⟩
      rcases he with rfl | rfl <;> decide
  -- step 3 and 4 of the grammar, shared by both sign cases
  have hrest : (match (if startsWithStr (['.']) (fr ++ ex) then
        specDigits1 ((fr ++ ex).drop 1) else some (fr ++ ex)) with
      | none => false
      | some c3 =>
        match (if startsWithStr (['e']) c3 || startsWithStr (['E']) c3 then
            (if startsWithStr (['+']) (c3.drop 1) || startsWithStr (['-']) (c3.drop 1) then
              specDigits1 (c3.drop 2)
            else specDigits1 (c3.drop 1))
          else some c3) with
        | none => false
        | some c4 => c4.isEmpty) = true := by
    have hexp : (match (if startsWithStr (['e']) ex || startsWithStr (['E']) ex then
          (if startsWithStr (['+']) (ex.drop 1) || startsWithStr (['-']) (ex.drop 1) then
            specDigits1 (ex.drop 2)
          else specDigits1 (ex.drop 1))
        else some ex) with
      | none => false
      | some c4 => c4.isEmpty) = true := by
      rcases hex with rfl | ⟨e, sg2, ds3, rfl, he, hsg2, hne3, hds3⟩
      · simp [startsWithStr]
      · obtain ⟨d3, ds3t, rfl⟩ : ∃ a t, ds3 = a :: t := by
          cases ds3 with
          | nil => exact absurd rfl hne3
          | cons a t => exact ⟨a, t, rfl⟩
        have hd3 : isDig d3 = true := hds3 d3 (by simp)
        have hce : (startsWithStr (['e']) (e :: (sg2 ++ d3 :: ds3t)) ||
            startsWithStr (['E']) (e :: (sg2 ++ d3 :: ds3t))) = true := by
          rcases he with rfl | rfl <;> simp [startsWithStr]
        rw [if_pos hce]
        simp only [List.drop_succ_cons, List.drop_zero]
        have hD3 : specDigits1 (d3 :: ds3t) = some [] := by
          have := specDigits1_all_stop hne3 hds3 (Or.inl rfl)
          rwa [List.append_nil] at this
        rcases hsg2 with rfl | rfl | rfl
        · simp only [List.nil_append]
          have hcs : (startsWithStr (['+']) (d3 :: ds3t) ||
              startsWithStr (['-']) (d3 :: ds3t)) = false := by
            rw [sws_single_false (isDig_ne hd3 (by decide)),
              sws_single_false (isDig_ne hd3 (by decide))]
            rfl
          rw [if_neg (by simp [hcs])]
          rw [hD3]
          rfl
        · have hcs : (startsWithStr (['+']) ('+' :: (d3 :: ds3t)) ||
              startsWithStr (['-']) ('+' :: (d3 :: ds3t))) = true := by
            simp [startsWithStr]
          simp only [List.cons_append, List.nil_append]
          rw [if_pos hcs]
          simp only [List.drop_succ_cons, List.drop_zero]
          rw [hD3]
          rfl
        · have hcs : (startsWithStr (['+']) ('-' :: (d3 :: ds3t)) ||
              startsWithStr (['-']) ('-' :: (d3 :: ds3t))) = true := by
            simp [startsWithStr]
          simp only [List.cons_append, List.nil_append]
          rw [if_pos hcs]
          simp only [List.drop_succ_cons, List.drop_zero]
          rw [hD3]
          rfl
    rcases hfr with rfl | ⟨ds2, rfl, hne2, hds2⟩
    · simp only [List.nil_append]
      have hdot : startsWithStr (['.']) ex = false := by
        rcases hex with rfl | ⟨e, sg2, ds3, heq, he, h1, h2, h3⟩
        · rfl
        · rw [heq]
          refine sws_single_false ?_
          rcases he with rfl | rfl <;> decide
      rw [if_neg (by simp [hdot])]
      exact hexp
    · have hdot : startsWithStr (['.']) ('.' :: (ds2 ++ ex)) = true := by
        simp [startsWithStr]
      simp only [List.cons_append]
      rw [if_pos hdot]
      simp only [List.drop_succ_cons, List.drop_zero]
      rw [specDigits1_all_stop hne2 hds2 hstopex]
      exact hexp
  -- assemble, by cases on the sign
  rcases hsg with rfl | rfl
  · simp only [specNumberGrammar, List.nil_append, List.cons_append]
    have hm : startsWithStr (['-']) (d :: (ds1t ++ (fr ++ ex))) = false :=
      sws_single_false (isDig_ne hd (by decide))
    rw [if_neg (by simp [hm])]
    have hD1c : specDigits1 (d :: (ds1t ++ (fr ++ ex))) = some (fr ++ ex) := by
      simpa using hD1
    rw [hD1c]
    exact hrest
  · simp only [specNumberGrammar, List.cons_append, List.nil_append]
    have hm : startsWithStr (['-']) ('-' :: ((d :: ds1t) ++ (fr ++ ex))) = true := by
      simp [startsWithStr]
    rw [if_pos (by simpa using hm)]
    simp only [List.drop_succ_cons, List.drop_zero]
    have hD1c : specDigits1 (d :: (ds1t ++ (fr ++ ex))) = some (fr ++ ex) := by
      simpa using hD1
    rw [hD1c]
    exact hrest

theorem parse_number_grammar_sound {s : List Char} {v : JsonValue} {r : List Char}
    (h : parse_number s = .ok v r) :
    ∃ pre, s = pre ++ r ∧ specNumberGrammar pre = true := by
  rcases parse_number_shape h with ⟨sg, ds1, fr, ex, x, hs, hsg, hne, hds1, hfr, hex, -, -⟩
  refine ⟨sg ++ (ds1 ++ (fr ++ ex)), ?_,
    specNumberGrammar_of_parts hsg hne hds1 hfr hex⟩
  rw [hs]
  simp [List.append_assoc]


theorem parse_number_no_digits {s : List Char} {sg r1 : List Char}
    (hscan : scanSign s = (sg, r1)) (hds : r1.takeWhile isDig = []) :
    parse_number s = .err ("Number must contain at least one digit") := by
  simp only [parse_number]
  rw [hscan]
  simp only
  rw [hds]

theorem parse_number_dot_no_digits {s : List Char} {sg r1 : List Char}
    (hscan : scanSign s = (sg, r1)) (hds : r1.takeWhile isDig ≠ [])
    (hdot : startsWithStr (['.']) (r1.dropWhile isDig) = true)
    (hnd : ((r1.dropWhile isDig).drop 1).takeWhile isDig = []) :
    parse_number s = .err ("Decimal point must be followed by at least one digit") := by
  simp only [parse_number]
  rw [hscan]
  simp only
  cases hds1 : r1.takeWhile isDig with
  | nil => exact absurd hds1 hds
  | cons a t =>
    try simp only
    have hsf : scanFrac (r1.dropWhile isDig) =
        .error ("Decimal point must be followed by at least one digit") := by
      simp only [scanFrac]
      rw [if_pos hdot, hnd]
    rw [hsf]

theorem parse_number_exp_no_digits {s : List Char} {sg r1 fr r3 : List Char}
    (hscan : scanSign s = (sg, r1)) (hds : r1.takeWhile isDig ≠ [])
    (hfrac : scanFrac (r1.dropWhile isDig) = .ok (fr, r3))
    (he : (startsWithStr (['e']) r3 || startsWithStr (['E']) r3) = true)
    (hnd : (if startsWithStr (['+']) (r3.drop 1) || startsWithStr (['-']) (r3.drop 1) then
        (r3.drop 1).drop 1 else r3.drop 1).takeWhile isDig = []) :
    parse_number s = .err ("Exponent must be followed by at least one digit") := by
  simp only [parse_number]
  rw [hscan]
  simp only
  cases hds1 : r1.takeWhile isDig with
  | nil => exact absurd hds1 hds
  | cons a t =>
    try simp only
    rw [hfrac]
    try simp only
    have hse : scanExp r3 = .error ("Exponent must be followed by at least one digit") := by
      simp only [scanExp]
      rw [if_pos he]
      try simp only
      rw [hnd]
    rw [hse]

/-! ### Dispatch and literal characterizations (C6, C7) -/

theorem parse_value_dispatch {n : Nat} {rem : List Char} :
    (skipWs rem = [] → parse_value (n + 1) rem = .err ("Unexpected end of input")) ∧
    ∀ {c : Char} {rest : List Char}, skipWs rem = c :: rest →
      parse_value (n + 1) rem =
        (if c = 'n' then parse_null (c :: rest)
        else if c = 't' ∨ c = 'f' then parse_boolean (c :: rest)
        else if c = '"' then parse_string (c :: rest)
        else if c = '[' then parse_array (parse_value n) n (c :: rest)
        else if c = '{' then parse_object (parse_value n) n (c :: rest)
        else if isDig c ∨ c = '-' then parse_number (c :: rest)
        else .err ("Unexpected character")) := by
  constructor
  · intro h
    simp only [parse_value]
    rw [h]
  · intro c rest h
    simp only [parse_value]
    rw [h]

theorem parse_null_char {rem : List Char} :
    (startsWithStr ("null".toList) rem = true →
      parse_null rem = .ok .null (rem.drop 4)) ∧
    (startsWithStr ("null".toList) rem = false →
      parse_null rem = .err ("Invalid null value")) := by
  constructor
  · intro h
    simp only [parse_null]
    rw [if_pos h]
  · intro h
    simp only [parse_null]
    rw [if_neg (by rw [h]; simp)]

theorem parse_boolean_char {rem : List Char} :
    (startsWithStr ("true".toList) rem = true →
      parse_boolean rem = .ok (.boolean true) (rem.drop 4)) ∧
    (startsWithStr ("true".toList) rem = false →
      startsWithStr ("false".toList) rem = true →
      parse_boolean rem = .ok (.boolean false) (rem.drop 5)) ∧
    (startsWithStr ("true".toList) rem = false →
      startsWithStr ("false".toList) rem = false →
      parse_boolean rem = .err ("Invalid boolean value")) := by
  refine ⟨?_, ?_, ?_⟩
  · intro h
    simp only [parse_boolean]
    rw [if_pos h]
  · intro h1 h2
    simp only [parse_boolean]
    rw [if_neg (by rw [h1]; simp), if_pos h2]
  · intro h1 h2
    simp only [parse_boolean]
    rw [if_neg (by rw [h1]; simp), if_neg (by rw [h2]; simp)]


/-! ### The unicode escape (C3) -/

theorem readHexLoop_four {h1 h2 h3 h4 : Char} {d1 d2 d3 d4 : Nat} {rest : List Char}
    (e1 : toDigit16 h1 = some d1) (e2 : toDigit16 h2 = some d2)
    (e3 : toDigit16 h3 = some d3) (e4 : toDigit16 h4 = some d4) :
    readHexLoop 4 0 (h1 :: h2 :: h3 :: h4 :: rest) =
      .ok (((d1 * 16 + d2) * 16 + d3) * 16 + d4, rest) := by
  simp only [readHexLoop, e1, e2, e3, e4]
  rw [hex4_comb (toDigit16_lt e1) (toDigit16_lt e2) (toDigit16_lt e3) (toDigit16_lt e4)]

theorem readHexLoop_short : ∀ {i code : Nat} {t : List Char},
    t.length < i → (∀ c ∈ t, (toDigit16 c).isSome) →
    readHexLoop i code t = .error ("Incomplete unicode escape sequence") := by
  intro i
  induction i with
  | zero => intro code t hlen hhex; omega
  | succ n ih =>
    intro code t hlen hhex
    cases t with
    | nil => rfl
    | cons c rest =>
      simp only [readHexLoop]
      cases hd : toDigit16 c with
      | none =>
        have := hhex c (by simp)
        rw [hd] at this
        simp at this
      | some d =>
        simp only
        apply ih
        · simp only [List.length_cons] at hlen
          omega
        · intro x hx
          exact hhex x (by simp [hx])

theorem readHexLoop_nonhex : ∀ {pre : List Char} {i code : Nat} {c : Char}
    {t : List Char}, pre.length < i → (∀ x ∈ pre, (toDigit16 x).isSome) →
    toDigit16 c = none →
    readHexLoop i code (pre ++ c :: t) = .error ("Invalid unicode escape sequence") := by
  intro pre
  induction pre with
  | nil =>
    intro i code c t hlen hpre hc
    obtain ⟨k, rfl⟩ : ∃ k, i = k + 1 := ⟨i - 1, by omega⟩
    simp only [List.nil_append, readHexLoop, hc]
  | cons p pt ih =>
    intro i code c t hlen hpre hc
    obtain ⟨k, rfl⟩ : ∃ k, i = k + 1 := ⟨i - 1, by omega⟩
    have hp := hpre p (by simp)
    cases hd : toDigit16 p with
    | none => rw [hd] at hp; simp at hp
    | some d =>
      simp only [List.cons_append, readHexLoop, hd]
      apply ih
      · simp only [List.length_cons] at hlen
        omega
      · intro x hx
        exact hpre x (by simp [hx])
      · exact hc

theorem psLoop_unicode {n : Nat} {acc : List Char} {h1 h2 h3 h4 : Char}
    {d1 d2 d3 d4 : Nat} {rest : List Char}
    (e1 : toDigit16 h1 = some d1) (e2 : toDigit16 h2 = some d2)
    (e3 : toDigit16 h3 = some d3) (e4 : toDigit16 h4 = some d4) :
    psLoop (n + 1) acc ('\\' :: 'u' :: h1 :: h2 :: h3 :: h4 :: rest) =
      (if 55296 ≤ ((d1 * 16 + d2) * 16 + d3) * 16 + d4 ∧
          ((d1 * 16 + d2) * 16 + d3) * 16 + d4 ≤ 57343 then
        .err ("Invalid unicode code point: " ++
          toString (((d1 * 16 + d2) * 16 + d3) * 16 + d4))
      else psLoop n (acc ++ [Char.ofNat (((d1 * 16 + d2) * 16 + d3) * 16 + d4)]) rest) := by
  have hb1 := toDigit16_lt e1
  have hb2 := toDigit16_lt e2
  have hb3 := toDigit16_lt e3
  have hb4 := toDigit16_lt e4
  have hbound : ((d1 * 16 + d2) * 16 + d3) * 16 + d4 < 65536 := by omega
  have hvalid : Nat.isValidChar (((d1 * 16 + d2) * 16 + d3) * 16 + d4) ↔
      ¬(55296 ≤ ((d1 * 16 + d2) * 16 + d3) * 16 + d4 ∧
        ((d1 * 16 + d2) * 16 + d3) * 16 + d4 ≤ 57343) := by
    unfold Nat.isValidChar
    omega
  simp only [psLoop]
  norm_num
  rw [if_neg (by decide), if_neg (by decide), if_neg (by decide), if_neg (by decide),
    if_neg (by decide), if_neg (by decide), if_neg (by decide), if_neg (by decide),
    if_neg (by decide)]
  rw [readHexLoop_four e1 e2 e3 e4]
  simp only [charFromU32]
  by_cases hv : Nat.isValidChar (((d1 * 16 + d2) * 16 + d3) * 16 + d4)
  · rw [if_pos hv]
    simp only
    rw [if_neg (hvalid.mp hv)]
  · rw [if_neg hv]
    simp only
    rw [if_pos (by
      by_contra hcon
      exact hv (hvalid.mpr hcon))]

theorem psLoop_unicode_short {n : Nat} {acc t : List Char}
    (hlen : t.length < 4) (hhex : ∀ c ∈ t, (toDigit16 c).isSome) :
    psLoop (n + 1) acc ('\\' :: 'u' :: t) =
      .err ("Incomplete unicode escape sequence") := by
  simp only [psLoop]
  norm_num
  rw [if_neg (by decide), if_neg (by decide), if_neg (by decide), if_neg (by decide),
    if_neg (by decide), if_neg (by decide), if_neg (by decide), if_neg (by decide),
    if_neg (by decide)]
  rw [readHexLoop_short hlen hhex]

theorem psLoop_unicode_nonhex {n : Nat} {acc pre : List Char} {c : Char}
    {t : List Char} (hlen : pre.length < 4)
    (hpre : ∀ x ∈ pre, (toDigit16 x).isSome) (hc : toDigit16 c = none) :
    psLoop (n + 1) acc ('\\' :: 'u' :: (pre ++ c :: t)) =
      .err ("Invalid unicode escape sequence") := by
  simp only [psLoop]
  norm_num
  rw [if_neg (by decide), if_neg (by decide), if_neg (by decide), if_neg (by decide),
    if_neg (by decide), if_neg (by decide), if_neg (by decide), if_neg (by decide),
    if_neg (by decide)]
  rw [readHexLoop_nonhex hlen hpre hc]


/-! ### The cursor invariant (C10) -/

theorem utf8Len_pos (c : Char) : 1 ≤ utf8Len c := by
  simp only [utf8Len]
  split
  · omega
  · split
    · omega
    · split <;> omega

theorem byteLen_append (l1 l2 : List Char) :
    byteLen (l1 ++ l2) = byteLen l1 + byteLen l2 := by
  induction l1 with
  | nil => simp [byteLen]
  | cons c t ih =>
    simp only [List.cons_append, List.append_eq, byteLen, ih]
    omega

theorem sliceFrom_byteLen : ∀ (pre rest : List Char),
    sliceFrom (pre ++ rest) (byteLen pre) = some rest := by
  intro pre
  induction pre with
  | nil => intro rest; simp [byteLen, sliceFrom]
  | cons c t ih =>
    intro rest
    have h1 := utf8Len_pos c
    obtain ⟨k, hk⟩ : ∃ k, utf8Len c + byteLen t = k + 1 :=
      ⟨utf8Len c + byteLen t - 1, by omega⟩
    simp only [List.cons_append, byteLen, hk, sliceFrom]
    rw [if_pos (by omega)]
    have h2 : k + 1 - utf8Len c = byteLen t := by omega
    rw [h2]
    exact ih rest

theorem new_valid (s : List Char) : (JsonParser.new s).Valid := ⟨[], rfl, rfl⟩

theorem valid_sliceFrom {p : JsonParser} (h : p.Valid) :
    sliceFrom p.input p.position = some p.remaining ∧
      p.position ≤ byteLen p.input := by
  rcases h with ⟨pre, h1, h2⟩
  constructor
  · rw [h1, h2]
    exact sliceFrom_byteLen pre p.remaining
  · rw [h1, h2, byteLen_append]
    omega

theorem next_char_valid {p : JsonParser} (h : p.Valid) :
    (JsonParser.next_char p).2.Valid := by
  rcases h with ⟨pre, h1, h2⟩
  simp only [JsonParser.next_char]
  cases hr : p.remaining with
  | nil => exact ⟨pre, by rw [h1, hr], h2⟩
  | cons c rest =>
    simp only
    have hbc : byteLen (pre ++ [c]) = byteLen pre + utf8Len c := by
      rw [byteLen_append]
      simp only [byteLen]
      omega
    have hs : sliceFrom p.input (p.position + utf8Len c) = some rest := by
      rw [h1, hr, h2]
      have ha : pre ++ (c :: rest) = (pre ++ [c]) ++ rest := by simp
      rw [ha, show byteLen pre + utf8Len c = byteLen (pre ++ [c]) from hbc.symm]
      exact sliceFrom_byteLen _ _
    refine ⟨pre ++ [c], ?_, ?_⟩
    · rw [hs]
      simp only [Option.getD_some]
      rw [h1, hr]
      simp
    · rw [h2, hbc]

theorem skipWsAux_valid : ∀ (n : Nat) {p : JsonParser}, p.Valid →
    (JsonParser.skipWsAux n p).Valid := by
  intro n
  induction n with
  | zero => intro p h; exact h
  | succ k ih =>
    intro p h
    simp only [JsonParser.skipWsAux]
    cases hr : p.remaining with
    | nil => exact h
    | cons c rest =>
      simp only
      by_cases hw : rustIsWhitespace c = true
      · rw [if_pos hw]
        exact ih (next_char_valid h)
      · rw [if_neg hw]
        exact h

theorem skip_whitespace_valid {p : JsonParser} (h : p.Valid) :
    (JsonParser.skip_whitespace p).Valid :=
  skipWsAux_valid _ h

theorem parse_null_cursor_valid {p : JsonParser} (h : p.Valid) {v : JsonValue}
    {p2 : JsonParser} (hok : JsonParser.parse_null p = .ok (v, p2)) :
    p2.Valid := by
  rcases h with ⟨pre, h1, h2⟩
  simp only [JsonParser.parse_null] at hok
  split at hok
  · rename_i hsw
    rcases startsWithStr_iff.mp hsw with ⟨t, ht⟩
    cases hok
    have hb : byteLen (pre ++ "null".toList) = byteLen pre + 4 := by
      rw [byteLen_append]
      rfl
    have hs : sliceFrom p.input (p.position + 4) = some t := by
      rw [h1, ht, h2]
      have ha : pre ++ ("null".toList ++ t) = (pre ++ "null".toList) ++ t := by simp
      rw [ha, show byteLen pre + 4 = byteLen (pre ++ "null".toList) from hb.symm]
      exact sliceFrom_byteLen _ _
    refine ⟨pre ++ "null".toList, ?_, ?_⟩
    · rw [hs]
      simp only [Option.getD_some]
      rw [h1, ht]
      simp
    · rw [h2, hb]
  · simp at hok

theorem parse_boolean_cursor_valid {p : JsonParser} (h : p.Valid) {v : JsonValue}
    {p2 : JsonParser} (hok : JsonParser.parse_boolean p = .ok (v, p2)) :
    p2.Valid := by
  rcases h with ⟨pre, h1, h2⟩
  simp only [JsonParser.parse_boolean] at hok
  split at hok
  · rename_i hsw
    rcases startsWithStr_iff.mp hsw with ⟨t, ht⟩
    cases hok
    have hb : byteLen (pre ++ "true".toList) = byteLen pre + 4 := by
      rw [byteLen_append]
      rfl
    have hs : sliceFrom p.input (p.position + 4) = some t := by
      rw [h1, ht, h2]
      have ha : pre ++ ("true".toList ++ t) = (pre ++ "true".toList) ++ t := by simp
      rw [ha, show byteLen pre + 4 = byteLen (pre ++ "true".toList) from hb.symm]
      exact sliceFrom_byteLen _ _
    refine ⟨pre ++ "true".toList, ?_, ?_⟩
    · rw [hs]
      simp only [Option.getD_some]
      rw [h1, ht]
      simp
    · rw [h2, hb]
  · split at hok
    · rename_i hsw
      rcases startsWithStr_iff.mp hsw with ⟨t, ht⟩
      cases hok
      have hb : byteLen (pre ++ "false".toList) = byteLen pre + 5 := by
        rw [byteLen_append]
        rfl
      have hs : sliceFrom p.input (p.position + 5) = some t := by
        rw [h1, ht, h2]
        have ha : pre ++ ("false".toList ++ t) = (pre ++ "false".toList) ++ t := by simp
        rw [ha, show byteLen pre + 5 = byteLen (pre ++ "false".toList) from hb.symm]
        exact sliceFrom_byteLen _ _
      refine ⟨pre ++ "false".toList, ?_, ?_⟩
      · rw [hs]
        simp only [Option.getD_some]
        rw [h1, ht]
        simp
      · rw [h2, hb]
    · simp at hok


/-! ## The claims -/

/-- Claim C1: the top-level parse succeeds only if the input is exactly one
JSON value surrounded by optional whitespace; whenever non-whitespace
characters remain after the value, it returns the trailing-content error,
and in particular `null null` is rejected. -/
theorem C1_trailing_content :
    (∀ (s : List Char) (v : JsonValue),
      parse s = .ok v ↔ ∃ rem1, parse_value (s.length + 1) (skipWs s) = .ok v rem1 ∧
        ∀ c ∈ rem1, rustIsWhitespace c = true)
    ∧ (∀ (s : List Char) (v : JsonValue) (rem1 : List Char),
      parse_value (s.length + 1) (skipWs s) = .ok v rem1 →
      ¬(∀ c ∈ rem1, rustIsWhitespace c = true) →
      parse s = .err ("Extra characters after JSON value"))
    ∧ parse ("null null".toList) = .err ("Extra characters after JSON value") :=
  ⟨fun _ _ => parse_ok_iff,
   fun _ _ _ h1 h2 => parse_trailing_err h1 h2,
   by rfl⟩

theorem C1_trailing_content_witness :
    parse ("null null".toList) = .err ("Extra characters after JSON value") :=
  C1_trailing_content.2.1 ("null null".toList) .null (' ' :: "null".toList)
    (by rfl) (by decide)

/-- Claim C2: the object parser inserts with last-wins semantics, so a key
occurring more than once maps to the value of its last occurrence; in
particular the object written `\x7b"a":1,"a":2\x7d` maps `a` to the number 2. -/
theorem C2_duplicate_keys :
    (∀ (m : List (List Char × JsonValue)) (k : List Char) (v : JsonValue),
      List.lookup k (insertKV m k v) = some v)
    ∧ ∃ entries, parse (("\x7b\"a\":1,\"a\":2\x7d").toList) = .ok (.object entries) ∧
        List.lookup ("a".toList) entries = some (.number (.finite 2)) :=
  ⟨lookup_insertKV, [("a".toList, .number (.finite 2))], by rfl, by rfl⟩

/-- Claim C3: a `\u` escape in the string parser consumes exactly four hex
digits, combines them big-endian into a 16-bit code unit, and appends the
corresponding scalar value; it fails when fewer than four characters remain
or one of them is not hex, and it fails on an unpaired surrogate instead of
assembling UTF-16 pairs; `"\u263A"` parses to the one-character string U+263A. -/
theorem C3_unicode_escape :
    (∀ (n : Nat) (acc : List Char) (h1 h2 h3 h4 : Char) (d1 d2 d3 d4 : Nat)
      (rest : List Char),
      toDigit16 h1 = some d1 → toDigit16 h2 = some d2 → toDigit16 h3 = some d3 →
      toDigit16 h4 = some d4 →
      psLoop (n + 1) acc ('\\' :: 'u' :: h1 :: h2 :: h3 :: h4 :: rest) =
        (if 55296 ≤ ((d1 * 16 + d2) * 16 + d3) * 16 + d4 ∧
            ((d1 * 16 + d2) * 16 + d3) * 16 + d4 ≤ 57343 then
          .err ("Invalid unicode code point: " ++
            toString (((d1 * 16 + d2) * 16 + d3) * 16 + d4))
        else psLoop n (acc ++ [Char.ofNat (((d1 * 16 + d2) * 16 + d3) * 16 + d4)]) rest))
    ∧ (∀ (n : Nat) (acc t : List Char), t.length < 4 →
        (∀ c ∈ t, (toDigit16 c).isSome) →
        psLoop (n + 1) acc ('\\' :: 'u' :: t) =
          .err ("Incomplete unicode escape sequence"))
    ∧ (∀ (n : Nat) (acc pre : List Char) (c : Char) (t : List Char), pre.length < 4 →
        (∀ x ∈ pre, (toDigit16 x).isSome) → toDigit16 c = none →
        psLoop (n + 1) acc ('\\' :: 'u' :: (pre ++ c :: t)) =
          .err ("Invalid unicode escape sequence"))
    ∧ parse (("\"\\u263A\"").toList) = .ok (.string [Char.ofNat 9786]) :=
  ⟨fun _ _ _ _ _ _ _ _ _ _ _ e1 e2 e3 e4 => psLoop_unicode e1 e2 e3 e4,
   fun _ _ _ hl hh => psLoop_unicode_short hl hh,
   fun _ _ _ _ _ hl hp hc => psLoop_unicode_nonhex hl hp hc,
   by rfl⟩

theorem C3_unicode_escape_witness :
    psLoop 1 [] ('\\' :: 'u' :: '2' :: '6' :: '3' :: 'A' :: '"' :: []) =
      psLoop 0 [Char.ofNat 9786] ['"'] := by
  have h := C3_unicode_escape.1 0 [] '2' '6' '3' 'A' 2 6 3 10 ['"']
    (by rfl) (by rfl) (by rfl) (by rfl)
  norm_num at h
  simpa using h

/-- Claim C4: the number parser follows the grammar optional `-`, one or
more digits (required), optional `.` plus one or more digits, optional
`e`/`E` with optional sign plus one or more digits; every accepted prefix
matches that grammar, each missing-digit situation is a hard error, and
leading zeros are accepted (`007` parses to the number 7). -/
theorem C4_number_grammar :
    (∀ (s : List Char) (v : JsonValue) (r : List Char), parse_number s = .ok v r →
      ∃ pre, s = pre ++ r ∧ specNumberGrammar pre = true)
    ∧ (∀ (s sg r1 : List Char), scanSign s = (sg, r1) → r1.takeWhile isDig = [] →
        parse_number s = .err ("Number must contain at least one digit"))
    ∧ (∀ (s sg r1 : List Char), scanSign s = (sg, r1) → r1.takeWhile isDig ≠ [] →
        startsWithStr (['.']) (r1.dropWhile isDig) = true →
        ((r1.dropWhile isDig).drop 1).takeWhile isDig = [] →
        parse_number s = .err ("Decimal point must be followed by at least one digit"))
    ∧ (∀ (s sg r1 fr r3 : List Char), scanSign s = (sg, r1) →
        r1.takeWhile isDig ≠ [] →
        scanFrac (r1.dropWhile isDig) = .ok (fr, r3) →
        (startsWithStr (['e']) r3 || startsWithStr (['E']) r3) = true →
        (if startsWithStr (['+']) (r3.drop 1) || startsWithStr (['-']) (r3.drop 1) then
          (r3.drop 1).drop 1 else r3.drop 1).takeWhile isDig = [] →
        parse_number s = .err ("Exponent must be followed by at least one digit"))
    ∧ parse_number ("-".toList) = .err ("Number must contain at least one digit")
    ∧ parse_number ("1.".toList) =
        .err ("Decimal point must be followed by at least one digit")
    ∧ parse_number ("1e".toList) =
        .err ("Exponent must be followed by at least one digit")
    ∧ parse_number ("1e+".toList) =
        .err ("Exponent must be followed by at least one digit")
    ∧ parse ("007".toList) = .ok (.number (.finite 7)) :=
  ⟨fun _ _ _ h => parse_number_grammar_sound h,
   fun _ _ _ h1 h2 => parse_number_no_digits h1 h2,
   fun _ _ _ h1 h2 h3 h4 => parse_number_dot_no_digits h1 h2 h3 h4,
   fun _ _ _ _ _ h1 h2 h3 h4 h5 => parse_number_exp_no_digits h1 h2 h3 h4 h5,
   by rfl, by rfl, by rfl, by rfl, by rfl⟩

theorem C4_number_grammar_witness :
    parse_number ("-".toList) = .err ("Number must contain at least one digit") :=
  C4_number_grammar.2.1 ("-".toList) ['-'] [] (by rfl) (by rfl)

/-- Claim C5: every number in a successfully parsed value tree is a proper
double, never NaN: the parser fails on malformed input rather than
producing NaN, while literals overflowing the double range are accepted
and become an infinity (`1e400` parses to positive infinity). -/
theorem C5_numbers_not_nan :
    (∀ (s : List Char) (v : JsonValue), parse s = .ok v → NumOk v)
    ∧ parse ("1e400".toList) = .ok (.number (.inf false)) :=
  ⟨fun _ _ h => parse_NumOk h, by rfl⟩

theorem C5_numbers_not_nan_witness :
    NumOk (.number (.inf false)) :=
  C5_numbers_not_nan.1 ("1e400".toList) (.number (.inf false)) (by rfl)

/-- Claim C6: the value dispatcher peeks at the first non-whitespace
character without consuming it and routes `n` to null, `t`/`f` to boolean,
`"` to string, `[` to array, `\x7b` to object and digits or `-` to number;
any other character is the unexpected-character error and end of input the
unexpected-end error; `invalid` fails on the unexpected character `i`. -/
theorem C6_dispatch :
    (∀ (n : Nat) (rem : List Char), skipWs rem = [] →
      parse_value (n + 1) rem = .err ("Unexpected end of input"))
    ∧ (∀ (n : Nat) (rem : List Char) (c : Char) (rest : List Char),
        skipWs rem = c :: rest →
        parse_value (n + 1) rem =
          (if c = 'n' then parse_null (c :: rest)
          else if c = 't' ∨ c = 'f' then parse_boolean (c :: rest)
          else if c = '"' then parse_string (c :: rest)
          else if c = '[' then parse_array (parse_value n) n (c :: rest)
          else if c = '\x7b' then parse_object (parse_value n) n (c :: rest)
          else if isDig c ∨ c = '-' then parse_number (c :: rest)
          else .err ("Unexpected character")))
    ∧ parse ("invalid".toList) = .err ("Unexpected character")
    ∧ parse ([]) = .err ("Unexpected end of input") :=
  ⟨fun _ _ h => parse_value_dispatch.1 h,
   fun _ _ _ _ h => parse_value_dispatch.2 h,
   by rfl, by rfl⟩

theorem C6_dispatch_witness :
    parse_value 1 ("invalid".toList) = .err ("Unexpected character") := by
  have h := C6_dispatch.2.1 0 ("invalid".toList) 'i' ("nvalid".toList) (by rfl)
  rw [if_neg (by decide), if_neg (by decide), if_neg (by decide), if_neg (by decide),
    if_neg (by decide), if_neg (by decide)] at h
  exact h

/-- Claim C7: each literal parser checks the exact literal text `null`,
`true` or `false`, on a match advances the cursor past it (4 or 5
characters) returning the corresponding value, and on a mismatch fails
with the invalid-literal error; there is no partial-match tolerance, so
`nul` and `True` both fail. -/
theorem C7_literals :
    (∀ rem : List Char,
      (startsWithStr ("null".toList) rem = true →
        parse_null rem = .ok .null (rem.drop 4)) ∧
      (startsWithStr ("null".toList) rem = false →
        parse_null rem = .err ("Invalid null value")))
    ∧ (∀ rem : List Char,
      (startsWithStr ("true".toList) rem = true →
        parse_boolean rem = .ok (.boolean true) (rem.drop 4)) ∧
      (startsWithStr ("true".toList) rem = false →
        startsWithStr ("false".toList) rem = true →
        parse_boolean rem = .ok (.boolean false) (rem.drop 5)) ∧
      (startsWithStr ("true".toList) rem = false →
        startsWithStr ("false".toList) rem = false →
        parse_boolean rem = .err ("Invalid boolean value")))
    ∧ parse ("nul".toList) = .err ("Invalid null value")
    ∧ parse ("True".toList) = .err ("Unexpected character")
    ∧ parse ("null".toList) = .ok .null
    ∧ parse ("true".toList) = .ok (.boolean true)
    ∧ parse ("false".toList) = .ok (.boolean false) :=
  ⟨fun _ => parse_null_char, fun _ => parse_boolean_char,
   by rfl, by rfl, by rfl, by rfl, by rfl⟩

theorem C7_literals_witness :
    parse_null ("nullX".toList) = .ok .null (['X']) := by
  have h := (C7_literals.1 ("nullX".toList)).1 (by rfl)
  simpa using h

/-- Claim C8: for every input the parser terminates with a complete value
or an error — the fuelled descent never runs out of fuel — because every
recursive call into value parsing happens only after strictly consuming
input. -/
theorem C8_termination :
    (∀ s : List Char, (∃ v, parse s = .ok v) ∨ (∃ e, parse s = .err e))
    ∧ (∀ s : List Char, parse s ≠ .fuel)
    ∧ (∀ (n : Nat) (rem : List Char) (v : JsonValue) (rem2 : List Char),
        parse_value n rem = .ok v rem2 → rem2.length < rem.length) :=
  ⟨parse_total, parse_not_fuel, fun _ _ _ _ h => parse_value_length h⟩

theorem C8_termination_witness :
    parse_value 2 ("1".toList) = .ok (.number (.finite 1)) [] ∧
      ([] : List Char).length < ("1".toList).length :=
  ⟨by rfl,
   C8_termination.2.2 2 ("1".toList) (.number (.finite 1)) [] (by rfl)⟩

/-- Claim C9: whitespace framing does not change the result: if parsing a
document succeeds with some value, parsing the same document surrounded by
arbitrary whitespace on either side succeeds with the same value. -/
theorem C9_whitespace_framing :
    ∀ (w1 w2 d : List Char) (v : JsonValue),
      (∀ c ∈ w1, rustIsWhitespace c = true) →
      (∀ c ∈ w2, rustIsWhitespace c = true) →
      parse d = .ok v → parse (w1 ++ d ++ w2) = .ok v :=
  fun _ _ _ _ h1 h2 h => parse_ws_frame h1 h2 h

theorem C9_whitespace_framing_witness :
    parse ([' '] ++ "null".toList ++ ['\t']) = .ok .null :=
  C9_whitespace_framing [' '] ['\t'] ("null".toList) .null
    (by decide) (by decide) (by rfl)

/-- Claim C10: the parser maintains the cursor invariant that `remaining`
is the suffix of `input` at byte offset `position` (which therefore stays
within bounds and on a character boundary, so slicing at it is always
defined), and the invariant is preserved by `next_char`,
`skip_whitespace`, and by the literal parsers with their manual 4- and
5-byte advances. -/
theorem C10_cursor_invariant :
    (∀ s : List Char, (JsonParser.new s).Valid)
    ∧ (∀ p : JsonParser, p.Valid → (JsonParser.next_char p).2.Valid)
    ∧ (∀ p : JsonParser, p.Valid → (JsonParser.skip_whitespace p).Valid)
    ∧ (∀ (p : JsonParser) (v : JsonValue) (p2 : JsonParser), p.Valid →
        JsonParser.parse_null p = .ok (v, p2) → p2.Valid)
    ∧ (∀ (p : JsonParser) (v : JsonValue) (p2 : JsonParser), p.Valid →
        JsonParser.parse_boolean p = .ok (v, p2) → p2.Valid)
    ∧ (∀ p : JsonParser, p.Valid →
        sliceFrom p.input p.position = some p.remaining ∧
          p.position ≤ byteLen p.input) :=
  ⟨new_valid,
   fun _ h => next_char_valid h,
   fun _ h => skip_whitespace_valid h,
   fun _ _ _ h hok => parse_null_cursor_valid h hok,
   fun _ _ _ h hok => parse_boolean_cursor_valid h hok,
   fun _ h => valid_sliceFrom h⟩

theorem C10_cursor_invariant_witness :
    (JsonParser.next_char (JsonParser.new ("a".toList))).2.Valid ∧
      sliceFrom ("a".toList) 0 = some ("a".toList) :=
  ⟨C10_cursor_invariant.2.1 (JsonParser.new ("a".toList)) ⟨[], rfl, rfl⟩,
   (C10_cursor_invariant.2.2.2.2.2 (JsonParser.new ("a".toList)) ⟨[], rfl, rfl⟩).1⟩


end Arjp
